import Mathlib

/-!
# Verification of the LWE cryptosystem core (`src/App.tsx`, lweService part)

A shallow embedding of the toy Learning-With-Errors public-key cryptosystem:
key generation, bitwise encryption with noise injection, threshold decryption,
and the base64/JSON ciphertext codec.

Modelling conventions:
* JavaScript numbers are modelled as exact integers (`Int`/`Nat`).  Every value
  the source manipulates on its well-formed paths stays far below 2^53, where
  IEEE doubles are exact.
* The JS remainder operator `%` is truncated remainder, `Int.tmod`.
* `NaN` (arising from arithmetic on `undefined`) is modelled as `none` in
  `Option Int`; every comparison against `NaN` is false in JS, which the
  decision rule models explicitly.
* A thrown exception is modelled by `Option`/`Except` failure at the point of
  the operation that throws.
* Randomness (`crypto.getRandomValues`) is modelled by a stream `rnd : Nat → Nat`
  of the successive `Uint32` draws; `Date.now()` by an explicit `now : Nat`.
-/

namespace LWE

/-! ## Constants (src/App.tsx lines 340-343) -/

def Q : Int := 3329
def N : Nat := 128
def M : Nat := 256
def ERROR_RANGE : Nat := 3

/-- `Math.floor(Q / 2)` (src 479, 529). -/
def halfQ : Int := 1664

/-- `Math.floor(Q / 4)` (src 530). -/
def quarterQ : Int := 832

/-! ## The JS `((x % q) + q) % q` idiom -/

/-- The source's positive-modulo correction `((x % q) + q) % q`
(src 384, 395, 409, 416), with JS `%` = truncated remainder. -/
def jsMod (x q : Int) : Int := (x.tmod q + q).tmod q

theorem tmod_neg_arg (a b : Int) : (-a).tmod b = -(a.tmod b) := by
  rw [Int.tmod_def, Int.tmod_def, Int.neg_tdiv]
  ring

theorem tmod_bounds (a q : Int) (h : 0 < q) : -q < a.tmod q ∧ a.tmod q < q := by
  refine ⟨?_, Int.tmod_lt_of_pos _ h⟩
  rcases le_or_lt 0 a with ha | ha
  · have := Int.tmod_nonneg q ha
    omega
  · have h1 : ((-a).tmod q) < q := Int.tmod_lt_of_pos _ h
    have h2 := tmod_neg_arg a q
    omega

theorem tmod_modEq (a q : Int) : a.tmod q ≡ a [ZMOD q] := by
  have h := Int.tmod_add_tdiv a q
  have : q ∣ a - a.tmod q := ⟨a.tdiv q, by omega⟩
  exact Int.modEq_iff_dvd.mpr this

/-- Congruent integers with the representative in `[0, q)` pin down `emod`. -/
theorem eq_emod_of_modEq_of_range {a x q : Int} (hc : a ≡ x [ZMOD q])
    (h0 : 0 ≤ a) (h1 : a < q) : a = x % q := by
  have hq : 0 < q := lt_of_le_of_lt h0 h1
  have := Int.emod_emod_of_dvd a (dvd_refl q)
  calc a = a % q := (Int.emod_eq_of_lt h0 h1).symm
    _ = x % q := hc

/-- The JS positive-modulo correction computes the canonical representative:
it agrees with mathematical `emod` for any dividend. -/
theorem jsMod_eq_emod (x q : Int) (h : 0 < q) : jsMod x q = x % q := by
  unfold jsMod
  have hb := tmod_bounds x q h
  have hb2 := tmod_bounds (x.tmod q + q) q h
  have hnn : 0 ≤ (x.tmod q + q).tmod q := Int.tmod_nonneg _ (by omega)
  have hc : (x.tmod q + q).tmod q ≡ x [ZMOD q] := by
    calc (x.tmod q + q).tmod q ≡ x.tmod q + q [ZMOD q] := tmod_modEq _ q
      _ ≡ x + 0 [ZMOD q] := Int.ModEq.add (tmod_modEq x q) (Int.modEq_iff_dvd.mpr ⟨-1, by ring⟩)
      _ = x := by ring
  exact eq_emod_of_modEq_of_range hc hnn hb2.2

theorem jsMod_nonneg (x q : Int) (h : 0 < q) : 0 ≤ jsMod x q := by
  rw [jsMod_eq_emod x q h]; exact Int.emod_nonneg x (by omega)

theorem jsMod_lt (x q : Int) (h : 0 < q) : jsMod x q < q := by
  rw [jsMod_eq_emod x q h]; exact Int.emod_lt_of_pos x h

theorem jsMod_modEq (x q : Int) : jsMod x q ≡ x [ZMOD q] := by
  calc jsMod x q ≡ x.tmod q + q [ZMOD q] := tmod_modEq _ q
    _ ≡ x + 0 [ZMOD q] := Int.ModEq.add (tmod_modEq x q) (Int.modEq_iff_dvd.mpr ⟨-1, by ring⟩)
    _ = x := by ring

/-! ## Modular linear algebra (src 374-417)

The JS loops index `v[i]` for `i` below an explicitly computed bound; on the
well-formed inputs used by every call site (and required by the spec §4.2 as a
programming contract) all accesses are in bounds.  Out-of-bounds accesses are
modelled by `List.getD _ _ 0`; the JS original would instead poison the sum
with `NaN`, and `vecDotNaN` below captures exactly that distinction where the
decryptor can actually receive mismatched operands. -/

/-- Raw (un-reduced) dot-product loop `for i in [0, n): sum += v1[i] * v2[i]`. -/
def rawDot (n : Nat) (v1 v2 : List Int) : Int :=
  (List.range n).foldl (fun sum i => sum + v1.getD i 0 * v2.getD i 0) 0

/-- `matVecMul` (src 374-387): row i of the result is
`((Σ_j A[i][j] * s[j]) % q + q) % q`, the column count taken from `A[0]`. -/
def matVecMul (A : List (List Int)) (s : List Int) (q : Int) : List Int :=
  let n := (A.getD 0 []).length
  A.map (fun row => jsMod (rawDot n row s) q)

/-- `vecDot` (src 390-396). -/
def vecDot (v1 v2 : List Int) (q : Int) : Int :=
  jsMod (rawDot v1.length v1 v2) q

/-- The JS `vecDot` with a shorter second operand reads `undefined` and the
whole sum becomes `NaN`; `none` models that (reachable only from the
decryptor, which feeds it attacker-controlled `u`). -/
def vecDotNaN (v1 v2 : List Int) (q : Int) : Option Int :=
  if v2.length < v1.length then none else some (vecDot v1 v2 q)

/-- `matTransVecMul` (src 399-412): entry j of the result is
`((Σ_i A[i][j] * r[i]) % q + q) % q`. -/
def matTransVecMul (A : List (List Int)) (r : List Int) (q : Int) : List Int :=
  let m := A.length
  let n := (A.getD 0 []).length
  (List.range n).map (fun j =>
    jsMod ((List.range m).foldl (fun sum i => sum + (A.getD i []).getD j 0 * r.getD i 0) 0) q)

/-- `vecAdd` (src 415-417): element-wise `((v1[i] + v2[i]) % q + q) % q`. -/
def vecAdd (v1 v2 : List Int) (q : Int) : List Int :=
  v1.mapIdx (fun i val => jsMod (val + v2.getD i 0) q)

/-- Mathematical dot product over matched prefixes. -/
def dotZ (v w : List Int) : Int := (List.zipWith (· * ·) v w).sum

theorem foldl_range_add_eq_sum (f : Nat → Int) (n : Nat) :
    (List.range n).foldl (fun sum i => sum + f i) 0 = ∑ i ∈ Finset.range n, f i := by
  induction n with
  | zero => simp
  | succ k ih =>
    rw [Finset.sum_range_succ, ← ih, List.range_succ, List.foldl_append]
    simp

theorem rawDot_eq_sum (n : Nat) (v1 v2 : List Int) :
    rawDot n v1 v2 = ∑ i ∈ Finset.range n, v1.getD i 0 * v2.getD i 0 :=
  foldl_range_add_eq_sum _ n

theorem dotZ_eq_sum (v w : List Int) (h : v.length ≤ w.length) :
    dotZ v w = ∑ i ∈ Finset.range v.length, v.getD i 0 * w.getD i 0 := by
  unfold dotZ
  induction v generalizing w with
  | nil => simp
  | cons a v ih =>
    cases w with
    | nil => simp at h
    | cons b w =>
      simp only [List.zipWith_cons_cons, List.sum_cons, List.length_cons]
      rw [Finset.sum_range_succ']
      simp only [List.getD_cons_succ, List.getD_cons_zero]
      rw [ih w (by simpa using h)]
      ring

theorem rawDot_eq_dotZ (v1 v2 : List Int) (h : v1.length ≤ v2.length) :
    rawDot v1.length v1 v2 = dotZ v1 v2 := by
  rw [rawDot_eq_sum, dotZ_eq_sum _ _ h]

theorem rawDot_eq_dotZ' (n : Nat) (v1 v2 : List Int) (hn : n = v1.length)
    (h : v1.length ≤ v2.length) : rawDot n v1 v2 = dotZ v1 v2 := by
  subst hn
  exact rawDot_eq_dotZ v1 v2 h

theorem vecDot_eq_dotZ_emod (v1 v2 : List Int) (q : Int) (hq : 0 < q)
    (h : v1.length ≤ v2.length) : vecDot v1 v2 q = dotZ v1 v2 % q := by
  unfold vecDot
  rw [rawDot_eq_dotZ _ _ h, jsMod_eq_emod _ _ hq]

theorem vecDot_nonneg (v1 v2 : List Int) (q : Int) (hq : 0 < q) :
    0 ≤ vecDot v1 v2 q := jsMod_nonneg _ _ hq

theorem vecDot_lt (v1 v2 : List Int) (q : Int) (hq : 0 < q) :
    vecDot v1 v2 q < q := jsMod_lt _ _ hq

theorem vecAdd_eq_zipWith (v1 v2 : List Int) (q : Int) (hq : 0 < q)
    (hv : v1.length = v2.length) :
    vecAdd v1 v2 q = List.zipWith (fun a b => (a + b) % q) v1 v2 := by
  unfold vecAdd
  induction v1 generalizing v2 with
  | nil => simp
  | cons a v1 ih =>
    cases v2 with
    | nil => simp at hv
    | cons b v2 =>
      rw [List.mapIdx_cons, List.zipWith_cons_cons]
      congr 1
      · simp [jsMod_eq_emod _ _ hq]
      · simpa using ih v2 (by simpa using hv)

/-! ## Bit packing and unpacking -/

/-- Expand a byte into 8 bits, most-significant bit first:
`for (i = 7; i >= 0; i--) bits.push((byte >> i) & 1)` (src 458-462). -/
def byteToBits (byte : Nat) : List Nat :=
  (List.range 8).map (fun k => (byte >>> (7 - k)) &&& 1)

/-- The inner reassembly loop `byteVal = (byteVal << 1) | bit` (src 547-551),
folded over the bits present in one group. -/
def byteOfBits (bits : List Nat) : Nat :=
  bits.foldl (fun byteVal bit => (byteVal <<< 1) ||| bit) 0

/-- Bits to bytes, 8 at a time (src 544-553).  The `if (i + j < length)` guard
means a trailing group shorter than 8 is folded over just the bits present:
no shifts happen for the missing positions.  (Structural formulation of the
`i += 8` loop: each step consumes the first 8 bits, a shorter remainder is a
single final group.) -/
def bitsToBytes : List Nat → List Nat
  | [] => []
  | b0 :: b1 :: b2 :: b3 :: b4 :: b5 :: b6 :: b7 :: rest =>
      byteOfBits [b0, b1, b2, b3, b4, b5, b6, b7] :: bitsToBytes rest
  | bits => [byteOfBits bits]

theorem shiftLeft_lor_bit (a b : Nat) (hb : b ≤ 1) : (a <<< 1) ||| b = 2 * a + b := by
  rw [Nat.shiftLeft_eq]
  interval_cases b
  · simp; ring
  · have h2a : a * 2 ^ 1 = 2 * a := by ring
    rw [h2a]
    apply Nat.eq_of_testBit_eq
    intro k
    cases k with
    | zero =>
      simp [Nat.testBit_lor, Nat.testBit_zero]
      omega
    | succ k =>
      rw [Nat.testBit_lor, Nat.testBit_succ, Nat.testBit_succ, Nat.testBit_succ]
      have h1 : 2 * a / 2 = a := by omega
      have h2 : (2 * a + 1) / 2 = a := by omega
      have h3 : (1 : Nat) / 2 = 0 := by omega
      rw [h1, h2, h3]
      simp

theorem byteOfBits_go (bits : List Nat) (hb : ∀ b ∈ bits, b ≤ 1) (acc : Nat) :
    bits.foldl (fun byteVal bit => (byteVal <<< 1) ||| bit) acc =
      acc * 2 ^ bits.length +
        ∑ i ∈ Finset.range bits.length, bits.getD i 0 * 2 ^ (bits.length - 1 - i) := by
  induction bits generalizing acc with
  | nil => simp
  | cons b rest ih =>
    have hb0 : b ≤ 1 := hb b (by simp)
    simp only [List.foldl_cons, List.length_cons]
    rw [shiftLeft_lor_bit acc b hb0, ih (fun x hx => hb x (by simp [hx]))]
    rw [Finset.sum_range_succ']
    simp only [List.getD_cons_succ, List.getD_cons_zero]
    have : ∀ i, rest.length + 1 - 1 - (i + 1) = rest.length - 1 - i := by omega
    simp only [this]
    have hlen : rest.length + 1 - 1 - 0 = rest.length := by omega
    rw [hlen]
    ring

theorem byteOfBits_formula (bits : List Nat) (hb : ∀ b ∈ bits, b ≤ 1) :
    byteOfBits bits =
      ∑ i ∈ Finset.range bits.length, bits.getD i 0 * 2 ^ (bits.length - 1 - i) := by
  unfold byteOfBits
  rw [byteOfBits_go bits hb 0]
  simp

theorem getD_range_map {α : Type} (f : Nat → α) (n k : Nat) (d : α) (hk : k < n) :
    ((List.range n).map f).getD k d = f k := by
  rw [List.getD_eq_getElem?_getD, List.getElem?_map, List.getElem?_range hk]
  rfl

theorem byteToBits_getD (byte k : Nat) (hk : k < 8) :
    (byteToBits byte).getD k 0 = byte / 2 ^ (7 - k) % 2 := by
  unfold byteToBits
  rw [getD_range_map _ _ _ _ hk, Nat.shiftRight_eq_div_pow, Nat.and_one_is_mod]

theorem byteToBits_length (byte : Nat) : (byteToBits byte).length = 8 := by
  simp [byteToBits]

theorem byteToBits_le_one (byte : Nat) : ∀ b ∈ byteToBits byte, b ≤ 1 := by
  intro b hb
  simp only [byteToBits, List.mem_map] at hb
  obtain ⟨k, _, rfl⟩ := hb
  rw [Nat.and_one_is_mod]
  omega

/-- A full group of 8 bits reassembles to the original byte. -/
theorem byteOfBits_byteToBits (byte : Nat) (h : byte < 256) :
    byteOfBits (byteToBits byte) = byte := by
  rw [byteOfBits_formula _ (byteToBits_le_one byte), byteToBits_length]
  rw [Finset.sum_range_succ, Finset.sum_range_succ, Finset.sum_range_succ,
    Finset.sum_range_succ, Finset.sum_range_succ, Finset.sum_range_succ,
    Finset.sum_range_succ, Finset.sum_range_one]
  rw [byteToBits_getD byte 0 (by omega), byteToBits_getD byte 1 (by omega),
    byteToBits_getD byte 2 (by omega), byteToBits_getD byte 3 (by omega),
    byteToBits_getD byte 4 (by omega), byteToBits_getD byte 5 (by omega),
    byteToBits_getD byte 6 (by omega), byteToBits_getD byte 7 (by omega)]
  norm_num
  omega

theorem bitsToBytes_cons_chunk (chunk rest : List Nat) (h : chunk.length = 8) :
    bitsToBytes (chunk ++ rest) = byteOfBits chunk :: bitsToBytes rest := by
  match chunk, h with
  | [b0, b1, b2, b3, b4, b5, b6, b7], _ => rfl

/-- A nonempty group of fewer than 8 bits becomes a single byte. -/
theorem bitsToBytes_small (bits : List Nat) (h0 : bits ≠ []) (h8 : bits.length < 8) :
    bitsToBytes bits = [byteOfBits bits] := by
  match bits, h0 with
  | [a], _ => rfl
  | [a, b], _ => rfl
  | [a, b, c], _ => rfl
  | [a, b, c, d], _ => rfl
  | [a, b, c, d, e], _ => rfl
  | [a, b, c, d, e, f], _ => rfl
  | [a, b, c, d, e, f, g], _ => rfl
  | a :: b :: c :: d :: e :: f :: g :: h :: rest, _ => simp at h8; omega

/-- On a trailing group shorter than 8, the fold places the bits in the
low-order positions of the byte. -/
theorem bitsToBytes_short (bits : List Nat) (hb : ∀ b ∈ bits, b ≤ 1)
    (h0 : bits ≠ []) (h8 : bits.length < 8) :
    bitsToBytes bits =
      [∑ i ∈ Finset.range bits.length, bits.getD i 0 * 2 ^ (bits.length - 1 - i)] := by
  rw [bitsToBytes_small bits h0 h8, byteOfBits_formula _ hb]

/-- Structure of `bitsToBytes` on any bit list whose length is not a multiple
of 8: complete groups first, the incomplete trailing group folded into the
low-order positions of the last byte. -/
theorem bitsToBytes_trailing_group : ∀ (n : Nat) (bits : List Nat), bits.length = n →
    (∀ b ∈ bits, b ≤ 1) → bits.length % 8 ≠ 0 →
    bitsToBytes bits =
      bitsToBytes (bits.take (8 * (bits.length / 8))) ++
        [∑ i ∈ Finset.range (bits.length % 8),
          (bits.drop (8 * (bits.length / 8))).getD i 0 * 2 ^ (bits.length % 8 - 1 - i)] := by
  intro n
  induction n using Nat.strong_induction_on with
  | _ n ih =>
    intro bits hn hb hmod
    by_cases hsmall : bits.length < 8
    · have hdiv : bits.length / 8 = 0 := by omega
      have hm : bits.length % 8 = bits.length := by omega
      have hne : bits ≠ [] := by
        intro h; rw [h] at hmod; simp at hmod
      rw [hdiv, hm]
      simp only [Nat.mul_zero, List.take_zero, List.drop_zero]
      rw [show bitsToBytes [] = [] by rw [bitsToBytes]]
      rw [bitsToBytes_short bits hb hne (by omega)]
      simp
    · push_neg at hsmall
      -- split off the first full chunk of 8
      have hchunklen : (bits.take 8).length = 8 := by
        rw [List.length_take]; omega
      have hsplit := List.take_append_drop 8 bits
      have hdroplen : (bits.drop 8).length = bits.length - 8 := by simp
      have hbdrop : ∀ b ∈ bits.drop 8, b ≤ 1 := fun b h => hb b (List.mem_of_mem_drop h)
      have hmod' : (bits.drop 8).length % 8 ≠ 0 := by rw [hdroplen]; omega
      have ihdrop := ih (bits.length - 8) (by omega) (bits.drop 8) hdroplen hbdrop hmod'
      -- left side
      have hlhs : bitsToBytes bits = byteOfBits (bits.take 8) :: bitsToBytes (bits.drop 8) := by
        conv_lhs => rw [← hsplit]
        rw [bitsToBytes_cons_chunk _ _ hchunklen]
      -- take of the full-group prefix splits into the first chunk and the rest
      have harith : 8 * (bits.length / 8) = 8 + 8 * ((bits.length - 8) / 8) := by omega
      have htake : bits.take (8 * (bits.length / 8)) =
          bits.take 8 ++ (bits.drop 8).take (8 * ((bits.length - 8) / 8)) := by
        rw [harith, List.take_add]
      have hdrop : bits.drop (8 * (bits.length / 8)) =
          (bits.drop 8).drop (8 * ((bits.length - 8) / 8)) := by
        rw [List.drop_drop, harith, Nat.add_comm]
      rw [hlhs, ihdrop, htake, hdrop]
      rw [bitsToBytes_cons_chunk _ _ hchunklen]
      rw [hdroplen]
      have hmods : (bits.length - 8) % 8 = bits.length % 8 := by omega
      rw [hmods]
      simp

/-! ## Claim C7: the arithmetic kernel computes canonical representatives -/

/-- C7: for operands of matching dimensions and any modulus `q > 0`,
`matVecMul`, `matTransVecMul`, `vecDot` and `vecAdd` compute exactly the
documented modular sums with canonical representatives in `[0, q)`
(the `((raw % q) + q) % q` correction agreeing with mathematical `emod`),
and in particular `matVecMul [[1,2],[3,4]] [1,1] 7 = [3,0]`. -/
theorem c7_arithmetic_canonical
    (A : List (List Int)) (s r v1 v2 : List Int) (q : Int)
    (hq : 0 < q)
    (hA : ∀ row ∈ A, row.length = s.length)
    (hr : r.length = A.length)
    (hv : v1.length = v2.length) :
    matVecMul A s q = A.map (fun row => dotZ row s % q)
    ∧ (∀ x ∈ matVecMul A s q, 0 ≤ x ∧ x < q)
    ∧ matTransVecMul A r q = (List.range (A.getD 0 []).length).map
        (fun j => (∑ i ∈ Finset.range A.length, (A.getD i []).getD j 0 * r.getD i 0) % q)
    ∧ (∀ x ∈ matTransVecMul A r q, 0 ≤ x ∧ x < q)
    ∧ vecDot v1 v2 q = dotZ v1 v2 % q
    ∧ (0 ≤ vecDot v1 v2 q ∧ vecDot v1 v2 q < q)
    ∧ vecAdd v1 v2 q = List.zipWith (fun a b => (a + b) % q) v1 v2
    ∧ (∀ x ∈ vecAdd v1 v2 q, 0 ≤ x ∧ x < q)
    ∧ matVecMul [[1,2],[3,4]] [1,1] 7 = [3,0] := by
  refine ⟨?_, ?_, ?_, ?_, ?_, ⟨vecDot_nonneg _ _ _ hq, vecDot_lt _ _ _ hq⟩, ?_, ?_, by decide⟩
  · unfold matVecMul
    apply List.map_congr_left
    intro row hrow
    have hn : (A.getD 0 []).length = s.length := by
      match A, hrow with
      | a0 :: _, _ => exact hA a0 (by simp)
    rw [hn, ← hA row hrow, rawDot_eq_dotZ row s (by rw [hA row hrow]), jsMod_eq_emod _ _ hq]
  · intro x hx
    unfold matVecMul at hx
    simp only [List.mem_map] at hx
    obtain ⟨row, _, rfl⟩ := hx
    exact ⟨jsMod_nonneg _ _ hq, jsMod_lt _ _ hq⟩
  · unfold matTransVecMul
    apply List.map_congr_left
    intro j _
    rw [foldl_range_add_eq_sum, jsMod_eq_emod _ _ hq]
  · intro x hx
    unfold matTransVecMul at hx
    simp only [List.mem_map] at hx
    obtain ⟨j, _, rfl⟩ := hx
    exact ⟨jsMod_nonneg _ _ hq, jsMod_lt _ _ hq⟩
  · exact vecDot_eq_dotZ_emod v1 v2 q hq (le_of_eq hv)
  · exact vecAdd_eq_zipWith v1 v2 q hq hv
  · intro x hx
    unfold vecAdd at hx
    simp only [List.mapIdx_eq_enum_map, List.mem_map] at hx
    obtain ⟨⟨i, a⟩, _, rfl⟩ := hx
    exact ⟨jsMod_nonneg _ _ hq, jsMod_lt _ _ hq⟩

/-- Witness for C7 at the spec's hand-computed example (q = 7). -/
theorem c7_arithmetic_canonical_witness :
    matVecMul [[1, 2], [3, 4]] [1, 1] 7 = [3, 0] ∧ vecDot [1, 2] [3, 4] 7 = 4 := by
  have h := c7_arithmetic_canonical [[1, 2], [3, 4]] [1, 1] [5, 6] [1, 2] [3, 4] 7
    (by decide) (by decide) (by decide) (by decide)
  refine ⟨h.2.2.2.2.2.2.2.2, ?_⟩
  rw [h.2.2.2.2.1]
  decide

/-! ## Claim C4: the incomplete trailing bit group -/

/-- C4 counterexample: the claim says a single trailing bit `1` yields the
byte `1 * 2^(7-0) = 128` (zero bits padded in the trailing, low-order
positions).  The code's guarded loop performs no shift for absent positions,
so it yields the byte 1. -/
theorem c4_counterexample :
    bitsToBytes [1] = [1] ∧ bitsToBytes [1] ≠ [2 ^ (7 - 0)] := by decide

/-- C4 (amended): for a decoded bit sequence whose length is not a multiple
of 8, the incomplete trailing group of `k < 8` bits `b0 .. b(k-1)` produces
the byte value `Σ b_i * 2^(k-1-i)` — the bits occupy the low-order positions
(equivalently, zero padding is in the leading positions), which does not
mirror the MSB-first encoding order. -/
theorem c4_trailing_group_low_aligned (bits : List Nat)
    (hb : ∀ b ∈ bits, b ≤ 1) (hmod : bits.length % 8 ≠ 0) :
    bitsToBytes bits =
      bitsToBytes (bits.take (8 * (bits.length / 8))) ++
        [∑ i ∈ Finset.range (bits.length % 8),
          (bits.drop (8 * (bits.length / 8))).getD i 0 * 2 ^ (bits.length % 8 - 1 - i)] :=
  bitsToBytes_trailing_group bits.length bits rfl hb hmod

/-- Witness for C4 (amended) on the 11-bit sequence `10110011 101`:
the trailing group `101` gives the byte `1*4 + 0*2 + 1*1 = 5`. -/
theorem c4_trailing_group_low_aligned_witness :
    bitsToBytes [1, 0, 1, 1, 0, 0, 1, 1, 1, 0, 1] = [179, 5] := by
  have h := c4_trailing_group_low_aligned [1, 0, 1, 1, 0, 0, 1, 1, 1, 0, 1]
    (by decide) (by decide)
  rw [h]
  decide

/-! ## Decimal numerals

`JSON.stringify` renders the integers of the ciphertext container in plain
decimal; JS property access with a numeric key goes through the same decimal
string.  Fuel-based formulation so that concrete ciphertexts evaluate inside
the kernel. -/

def digitChar (d : Nat) : Char := Char.ofNat (48 + d)

def natToCharsAux : Nat → Nat → List Char → List Char
  | 0, _, acc => acc
  | fuel + 1, n, acc =>
      if n < 10 then digitChar n :: acc
      else natToCharsAux fuel (n / 10) (digitChar (n % 10) :: acc)

/-- Decimal numeral of a natural number (`String(n)` / `JSON.stringify(n)`). -/
def natToChars (n : Nat) : List Char := natToCharsAux (n + 1) n []

/-- Value of a digit string, most significant first. -/
def digitsVal (ds : List Char) : Nat := ds.foldl (fun acc c => acc * 10 + (c.toNat - 48)) 0

theorem natToCharsAux_step_small (fuel n : Nat) (acc : List Char) (h : n < 10) :
    natToCharsAux (fuel + 1) n acc = digitChar n :: acc := by
  rw [natToCharsAux, if_pos h]

theorem natToCharsAux_step_big (fuel n : Nat) (acc : List Char) (h : ¬n < 10) :
    natToCharsAux (fuel + 1) n acc = natToCharsAux fuel (n / 10) (digitChar (n % 10) :: acc) := by
  rw [natToCharsAux, if_neg h]

theorem natToCharsAux_append (fuel : Nat) : ∀ (n : Nat) (acc : List Char),
    natToCharsAux fuel n acc = natToCharsAux fuel n [] ++ acc := by
  induction fuel with
  | zero => intro n acc; simp [natToCharsAux]
  | succ fuel ih =>
    intro n acc
    by_cases h : n < 10
    · simp [natToCharsAux, h]
    · simp only [natToCharsAux, if_neg h]
      rw [ih (n / 10) (digitChar (n % 10) :: acc), ih (n / 10) [digitChar (n % 10)]]
      simp

theorem natToCharsAux_fuel_irrel : ∀ (fuel fuel' n : Nat), n < 10 ^ (fuel + 1) →
    n < 10 ^ (fuel' + 1) →
    natToCharsAux (fuel + 1) n [] = natToCharsAux (fuel' + 1) n [] := by
  intro fuel
  induction fuel with
  | zero =>
    intro fuel' n h h'
    have hn : n < 10 := by simpa using h
    simp [natToCharsAux, hn]
  | succ fuel ih =>
    intro fuel' n h h'
    by_cases hn : n < 10
    · rw [natToCharsAux_step_small _ _ _ hn, natToCharsAux_step_small _ _ _ hn]
    · have hdiv : n / 10 < 10 ^ (fuel + 1) := by
        have : 10 ^ (fuel + 1 + 1) = 10 ^ (fuel + 1) * 10 := by ring
        rw [this] at h
        omega
      match fuel' with
      | 0 =>
        have : n < 10 := by simpa using h'
        omega
      | fuel' + 1 =>
        have hdiv' : n / 10 < 10 ^ (fuel' + 1) := by
          have : 10 ^ (fuel' + 1 + 1) = 10 ^ (fuel' + 1) * 10 := by ring
          rw [this] at h'
          omega
        rw [natToCharsAux_step_big _ _ _ hn, natToCharsAux_step_big _ _ _ hn]
        rw [natToCharsAux_append (fuel + 1), natToCharsAux_append (fuel' + 1)]
        congr 1
        exact ih fuel' (n / 10) hdiv hdiv'

theorem lt_ten_pow_succ_self (n : Nat) : n < 10 ^ (n + 1) := by
  calc n < 2 ^ n * 2 := by
        have := Nat.lt_two_pow n
        omega
    _ = 2 ^ (n + 1) := by ring
    _ ≤ 10 ^ (n + 1) := Nat.pow_le_pow_left (by omega) _

/-- Unfolding rule for the numeral in terms of its last digit. -/
theorem natToChars_eq_div (n : Nat) (h : ¬n < 10) :
    natToChars n = natToChars (n / 10) ++ [digitChar (n % 10)] := by
  unfold natToChars
  rw [natToCharsAux_step_big n n [] h]
  rw [natToCharsAux_append]
  congr 1
  obtain ⟨k, rfl⟩ : ∃ k, n = k + 1 := ⟨n - 1, by omega⟩
  apply natToCharsAux_fuel_irrel k ((k + 1) / 10) ((k + 1) / 10)
  · have h1 := lt_ten_pow_succ_self ((k + 1) / 10)
    have h2 : 10 ^ ((k + 1) / 10 + 1) ≤ 10 ^ (k + 1) := Nat.pow_le_pow_right (by omega) (by omega)
    omega
  · exact lt_ten_pow_succ_self ((k + 1) / 10)

theorem natToChars_small (n : Nat) (h : n < 10) : natToChars n = [digitChar n] := by
  unfold natToChars
  rw [natToCharsAux_step_small n n [] h]

theorem digitChar_isDigit (d : Nat) (h : d < 10) : (digitChar d).isDigit = true := by
  interval_cases d <;> decide

theorem digitChar_toNat (d : Nat) (h : d < 10) : (digitChar d).toNat = 48 + d := by
  interval_cases d <;> decide

theorem natToChars_ne_nil (n : Nat) : natToChars n ≠ [] := by
  by_cases h : n < 10
  · rw [natToChars_small n h]; simp
  · rw [natToChars_eq_div n h]; simp

theorem natToChars_all_digits (n : Nat) : ∀ c ∈ natToChars n, c.isDigit = true := by
  induction n using Nat.strong_induction_on with
  | _ n ih =>
    by_cases h : n < 10
    · rw [natToChars_small n h]
      intro c hc
      simp at hc
      rw [hc]
      exact digitChar_isDigit n h
    · rw [natToChars_eq_div n h]
      intro c hc
      rcases List.mem_append.mp hc with h1 | h2
      · exact ih (n / 10) (by omega) c h1
      · simp at h2
        rw [h2]
        exact digitChar_isDigit (n % 10) (by omega)

theorem digitsVal_go (ds : List Char) : ∀ (acc : Nat),
    ds.foldl (fun acc c => acc * 10 + (c.toNat - 48)) acc =
      acc * 10 ^ ds.length + ds.foldl (fun acc c => acc * 10 + (c.toNat - 48)) 0 := by
  induction ds with
  | nil => intro acc; simp
  | cons c ds ih =>
    intro acc
    simp only [List.foldl_cons, List.length_cons]
    rw [ih (acc * 10 + (c.toNat - 48)), ih (0 * 10 + (c.toNat - 48))]
    ring

theorem digitsVal_append (ds es : List Char) :
    digitsVal (ds ++ es) = digitsVal ds * 10 ^ es.length + digitsVal es := by
  unfold digitsVal
  rw [List.foldl_append]
  rw [digitsVal_go es (List.foldl (fun acc c => acc * 10 + (c.toNat - 48)) 0 ds)]

theorem digitsVal_natToChars (n : Nat) : digitsVal (natToChars n) = n := by
  induction n using Nat.strong_induction_on with
  | _ n ih =>
    by_cases h : n < 10
    · rw [natToChars_small n h]
      simp [digitsVal, digitChar, Char.ofNat]
      interval_cases n <;> decide
    · rw [natToChars_eq_div n h, digitsVal_append, ih (n / 10) (by omega)]
      have hone : digitsVal [digitChar (n % 10)] = n % 10 := by
        simp [digitsVal, digitChar_toNat (n % 10) (by omega)]
      rw [hone]
      simp
      omega


/-! ## JSON values

`JSON.parse` can hand the decryptor an arbitrary JSON value; the decryptor
(src 510-562) destructures it with plain JS property accesses.  Numbers are
restricted to the integer fragment: the serializer only ever emits integers,
and non-integer numeric syntax is rejected by the parser model (a documented
restriction of the embedding; no theorem depends on non-integer numbers). -/

inductive Json where
  | null : Json
  | bool : Bool → Json
  | num : Int → Json
  | str : List Char → Json
  | arr : List Json → Json
  | obj : List (List Char × Json) → Json

def strChars (s : String) : List Char := s.data

/-- JS object property lookup on parsed JSON: the last duplicate key wins
(`JSON.parse` keeps the last occurrence). -/
def lookupField (fields : List (List Char × Json)) (key : List Char) : Option Json :=
  fields.foldl (fun acc f => if f.1 = key then some f.2 else acc) none

def isJsSpace (c : Char) : Bool :=
  c = ' ' ∨ c = '\t' ∨ c = '\n' ∨ c = '\r' ∨ c = '\x0b' ∨ c = '\x0c'

/-- JS `Number(string)`: trim whitespace; empty → 0; an optional sign and
decimal digits.  Remaining numeric syntaxes (fraction, exponent, hex) are
modelled as NaN — no reachable value in this development produces them. -/
def jsStringToNumber (s : List Char) : Option Int :=
  let t := ((s.dropWhile isJsSpace).reverse.dropWhile isJsSpace).reverse
  match t with
  | [] => some 0
  | '-' :: ds =>
      if ds ≠ [] ∧ ds.all Char.isDigit then some (-(digitsVal ds : Int)) else none
  | '+' :: ds =>
      if ds ≠ [] ∧ ds.all Char.isDigit then some ((digitsVal ds : Int)) else none
  | ds => if ds.all Char.isDigit then some ((digitsVal ds : Int)) else none

/-- JS `ToNumber` of a defined value, as used by `*` and `-`:
null → 0, booleans → 0/1, numbers themselves, strings via `Number`,
an array via its joined string (empty → "", singleton → its element's
string; a longer join contains a comma, NaN), a plain object →
"[object Object]", NaN.  Nested arrays inside a singleton are modelled as
NaN (unreachable here). -/
def jsToNumber : Json → Option Int
  | .null => some 0
  | .bool b => some (if b then 1 else 0)
  | .num n => some n
  | .str s => jsStringToNumber s
  | .arr [] => some 0
  | .arr [x] =>
      match x with
      | .num n => some n
      | .null => some 0
      | .str s => jsStringToNumber s
      | _ => none
  | .arr _ => none
  | .obj _ => none

/-- JS property access `x[i]` with a numeric key on a defined, non-null value:
arrays index, strings index into one-character strings, objects look the
decimal key up, numbers/booleans have no such property (undefined). -/
def jsIndex : Json → Nat → Option Json
  | .arr xs, i => xs[i]?
  | .str s, i => (s[i]?).map (fun c => .str [c])
  | .obj fields, i => lookupField fields (natToChars i)
  | _, _ => none

/-- The loop of `vecDot(sk, u, Q)` (src 390-396) when `u` is an arbitrary
defined JSON value: `sum += sk[i] * u[i]`, where a missing index or
non-coercible element turns the sum into NaN (`none`). -/
def vecDotJsonLoop (sk : List Int) (uv : Json) : Option Int :=
  (List.range sk.length).foldl
    (fun acc i =>
      match acc, (jsIndex uv i) with
      | some s, some e =>
          match jsToNumber e with
          | some t => some (s + sk.getD i 0 * t)
          | none => none
      | _, _ => none)
    (some 0)

/-- `vecDot(sk, u, Q)` as invoked by the decryptor on a parsed block's `u`
(src 522).  Outer `none` = the call throws (indexing `undefined`/`null`
with a nonempty `sk`); inner `none` = the sum is NaN. -/
def vecDotJson (sk : List Int) (u : Option Json) : Option (Option Int) :=
  match u with
  | none => if sk.isEmpty then some (some (jsMod 0 Q)) else none
  | some .null => if sk.isEmpty then some (some (jsMod 0 Q)) else none
  | some uv => some ((vecDotJsonLoop sk uv).map (fun s => jsMod s Q))

/-- Coercion of the block's `v` as consumed by `v - sTu`: a missing field is
`undefined`, i.e. NaN. -/
def jsNumOfOpt : Option Json → Option Int
  | none => none
  | some j => jsToNumber j

/-- The threshold decision for one block (src 524-540).  A `none` operand is
NaN: `d` stays NaN through `%`, the `d < 0` fix-up and the centering tests
are false, and `Math.abs(NaN - halfQ) < quarterQ` is false, so the code
pushes bit 0. -/
def thresholdBit (v sTu : Option Int) : Nat :=
  match v, sTu with
  | some v, some sTu =>
      let d0 := (v - sTu).tmod Q
      let d1 := if d0 < 0 then d0 + Q else d0
      let d2 := if d1 > Q - quarterQ then d1 - Q else d1
      if |d2 - halfQ| < quarterQ then 1 else 0
  | _, _ => 0

/-- Processing of one block (src 518-541).  `none` = the iteration throws:
destructuring `null`, or `vecDot` indexing an `undefined`/`null` `u` with a
nonempty secret key. -/
def blockToBit (sk : List Int) (block : Json) : Option Nat :=
  match block with
  | .null => none
  | .obj fields =>
      match vecDotJson sk (lookupField fields (strChars ("u"))) with
      | none => none
      | some sTu => some (thresholdBit (jsNumOfOpt (lookupField fields (strChars ("v")))) sTu)
  | _ =>
      match vecDotJson sk none with
      | none => none
      | some sTu => some (thresholdBit none sTu)

/-- `blocks.forEach(...)` (src 518): an exception aborts the whole pass. -/
def blocksToBits (sk : List Int) : List Json → Option (List Nat)
  | [] => some []
  | b :: rest =>
      match blockToBit sk b, blocksToBits sk rest with
      | some x, some xs => some (x :: xs)
      | _, _ => none

/-- Json encoding of a well-formed block, as produced by `JSON.parse` on the
serializer's output. -/
def blockJson (u : List Int) (v : Int) : Json :=
  .obj [(strChars ("u"), .arr (u.map Json.num)), (strChars ("v"), .num v)]

theorem vecDotJsonLoop_nums (sk us : List Int) (h : sk.length ≤ us.length) :
    vecDotJsonLoop sk (.arr (us.map Json.num)) = some (rawDot sk.length sk us) := by
  unfold vecDotJsonLoop rawDot
  have hgen : ∀ n, n ≤ sk.length →
      (List.range n).foldl
        (fun acc i =>
          match acc, (jsIndex (.arr (us.map Json.num)) i) with
          | some s, some e =>
              match jsToNumber e with
              | some t => some (s + sk.getD i 0 * t)
              | none => none
          | _, _ => none)
        (some 0) =
      some ((List.range n).foldl (fun sum i => sum + sk.getD i 0 * us.getD i 0) 0) := by
    intro n hn
    induction n with
    | zero => simp
    | succ k ih =>
      rw [List.range_succ, List.foldl_append, List.foldl_append, ih (by omega)]
      have hk : k < us.length := by omega
      have hidx : jsIndex (.arr (us.map Json.num)) k = some (.num (us.getD k 0)) := by
        show (us.map Json.num)[k]? = some (.num (us.getD k 0))
        rw [List.getElem?_map, List.getElem?_eq_getElem hk]
        simp [List.getD_eq_getElem?_getD, List.getElem?_eq_getElem hk]
      simp [hidx, jsToNumber]
  exact hgen sk.length (le_refl _)

theorem vecDotJson_nums (sk us : List Int) (h : sk.length ≤ us.length) :
    vecDotJson sk (some (.arr (us.map Json.num))) = some (some (vecDot sk us Q)) := by
  show some ((vecDotJsonLoop sk (.arr (us.map Json.num))).map (fun s => jsMod s Q)) =
    some (some (vecDot sk us Q))
  rw [vecDotJsonLoop_nums sk us h]
  rfl

/-- The `d = (v - sTu) % Q; if (d < 0) d += Q` fix-up computes `emod`. -/
theorem tmod_fixup_eq_emod (x q : Int) (hq : 0 < q) :
    (if x.tmod q < 0 then x.tmod q + q else x.tmod q) = x % q := by
  have hb := tmod_bounds x q hq
  by_cases hneg : x.tmod q < 0
  · rw [if_pos hneg]
    exact eq_emod_of_modEq_of_range
      (Int.ModEq.trans (Int.modEq_iff_dvd.mpr ⟨-1, by ring⟩) (tmod_modEq x q)) (by omega) (by omega)
  · rw [if_neg hneg]
    exact eq_emod_of_modEq_of_range (tmod_modEq x q) (by omega) (by omega)

theorem Q_pos : (0 : Int) < Q := by norm_num [Q]

theorem thresholdBit_some (v sTu : Int) :
    thresholdBit (some v) (some sTu) =
      if |(if (v - sTu) % Q > Q - quarterQ then (v - sTu) % Q - Q else (v - sTu) % Q) - halfQ|
          < quarterQ then 1 else 0 := by
  unfold thresholdBit
  dsimp only
  rw [tmod_fixup_eq_emod (v - sTu) Q Q_pos]

/-- On a well-formed block (`u` a number array at least as long as the
secret key, `v` a number), the per-block processing reduces to the
threshold decision on `vecDot sk u`. -/
theorem blockToBit_wf (sk us : List Int) (v : Int) (hlen : sk.length ≤ us.length) :
    blockToBit sk (blockJson us v) =
      some (thresholdBit (some v) (some (vecDot sk us Q))) := by
  show (match vecDotJson sk (some (.arr (us.map Json.num))) with
    | none => none
    | some sTu => some (thresholdBit (jsNumOfOpt (some (.num v))) sTu)) =
    some (thresholdBit (some v) (some (vecDot sk us Q)))
  rw [vecDotJson_nums sk us hlen]
  rfl

/-! ## Claim C8: the per-block decryption decision -/

/-- C8: for every block `{u, v}` (a well-formed `u` at least as long as the
secret key), the decryptor computes `d = (v - vecDot(sk, u)) mod Q`
canonicalized to `[0, Q)` (that is what `d % Q; if (d < 0) d += Q` yields),
replaces `d` by `d - Q` exactly when `d > Q - ⌊Q/4⌋`, and outputs bit 1 iff
`|d - ⌊Q/2⌋| < ⌊Q/4⌋`; in particular when the canonicalized value is 3328
the centering gives -1 and the block decodes to bit 0. -/
theorem c8_block_decryption (sk us : List Int) (v : Int) (hlen : sk.length ≤ us.length) :
    halfQ = Q / 2 ∧ quarterQ = Q / 4
    ∧ blockToBit sk (blockJson us v) =
        some (if |(if (v - vecDot sk us Q) % Q > Q - quarterQ
                   then (v - vecDot sk us Q) % Q - Q
                   else (v - vecDot sk us Q) % Q) - halfQ| < quarterQ then 1 else 0)
    ∧ ((v - vecDot sk us Q) % Q = 3328 → blockToBit sk (blockJson us v) = some 0) := by
  have hmain := blockToBit_wf sk us v hlen
  constructor
  · decide
  constructor
  · decide
  constructor
  · rw [hmain, thresholdBit_some]
  · intro h3328
    rw [hmain, thresholdBit_some, h3328]
    norm_num [Q, halfQ, quarterQ]

/-- Witness for C8 at the spec's numeric example: `sk = u = [0]`, `v = 3328`,
so the canonicalized difference is 3328 and the block decodes to bit 0. -/
theorem c8_block_decryption_witness : blockToBit [0] (blockJson [0] 3328) = some 0 := by
  have h := c8_block_decryption [0] [0] 3328 (by decide)
  exact h.2.2.2 (by decide)

/-! ## Key generation (src 421-446) -/

structure PublicKey where
  A : List (List Int)
  b : List Int

structure KeyPair where
  pk : PublicKey
  sk : List Int

/-- `getRandomInt(max)` (src 347-352): a fresh `Uint32` draw reduced mod `max`. -/
def getRandomInt (draw max : Nat) : Nat := draw % max

/-- `getRandomError(range)` (src 355-358): `getRandomInt(2*range+1) - range`. -/
def getRandomError (draw range : Nat) : Int :=
  (getRandomInt draw (range * 2 + 1) : Int) - range

/-- `generateMatrix(rows, cols, q)` (src 361-371), consuming `rows * cols`
consecutive draws row-major starting at index `start` of the stream. -/
def generateMatrix (rnd : Nat → Nat) (start rows cols q : Nat) : List (List Int) :=
  (List.range rows).map (fun i =>
    (List.range cols).map (fun j => (getRandomInt (rnd (start + i * cols + j)) q : Int)))

/-- `generateKeys` (src 421-446).  The random stream is consumed in source
order: `s` takes draws `0..N-1`, `A` the next `M*N` (row-major), `e` the
next `M`.  The error vector `e` exists only inside the body; the returned
`KeyPair` has just `pk = {A, b}` and `sk = s`. -/
def generateKeys (rnd : Nat → Nat) : KeyPair :=
  let s := (List.range N).map (fun i => getRandomError (rnd i) ERROR_RANGE)
  let A := generateMatrix rnd N M N Q.toNat
  let e := (List.range M).map (fun i => getRandomError (rnd (N + M * N + i)) ERROR_RANGE)
  let As := matVecMul A s Q
  let b := vecAdd As e Q
  { pk := { A := A, b := b }, sk := s }

theorem getRandomError_bounds (draw range : Nat) :
    -(range : Int) ≤ getRandomError draw range ∧ getRandomError draw range ≤ range := by
  unfold getRandomError getRandomInt
  have h : draw % (range * 2 + 1) < range * 2 + 1 := Nat.mod_lt _ (by omega)
  omega

theorem getRandomInt_lt (draw max : Nat) (h : 0 < max) : getRandomInt draw max < max :=
  Nat.mod_lt _ h

theorem getD_eq_getElem' {α : Type} (l : List α) (i : Nat) (d : α) (h : i < l.length) :
    l.getD i d = l[i] := by
  rw [List.getD_eq_getElem?_getD, List.getElem?_eq_getElem h]
  rfl

/-! ## Claim C5: the key-pair invariant -/

theorem generateKeys_def (rnd : Nat → Nat) :
    generateKeys rnd =
      { pk := { A := generateMatrix rnd N M N Q.toNat,
                b := vecAdd (matVecMul (generateMatrix rnd N M N Q.toNat)
                        ((List.range N).map (fun i => getRandomError (rnd i) ERROR_RANGE)) Q)
                      ((List.range M).map
                        (fun i => getRandomError (rnd (N + M * N + i)) ERROR_RANGE)) Q },
        sk := (List.range N).map (fun i => getRandomError (rnd i) ERROR_RANGE) } := rfl

theorem generateMatrix_length (rnd : Nat → Nat) (start rows cols q : Nat) :
    (generateMatrix rnd start rows cols q).length = rows := by
  simp [generateMatrix]

theorem generateMatrix_row (rnd : Nat → Nat) (start rows cols q : Nat) (i : Nat)
    (hi : i < rows) :
    (generateMatrix rnd start rows cols q).getD i [] =
      (List.range cols).map (fun j => (getRandomInt (rnd (start + i * cols + j)) q : Int)) := by
  unfold generateMatrix
  exact getD_range_map _ _ _ _ hi

theorem generateMatrix_rows (rnd : Nat → Nat) (start rows cols q : Nat) (hq : 0 < q) :
    ∀ row ∈ generateMatrix rnd start rows cols q,
      row.length = cols ∧ ∀ x ∈ row, 0 ≤ x ∧ x < (q : Int) := by
  intro row hrow
  simp only [generateMatrix, List.mem_map, List.mem_range] at hrow
  obtain ⟨i, _, rfl⟩ := hrow
  refine ⟨by simp, ?_⟩
  intro x hx
  simp only [List.mem_map, List.mem_range] at hx
  obtain ⟨j, _, rfl⟩ := hx
  have hlt := getRandomInt_lt (rnd (start + i * cols + j)) q hq
  constructor
  · positivity
  · exact_mod_cast hlt

theorem generateKeys_props (rnd : Nat → Nat) :
    (generateKeys rnd).sk.length = N
    ∧ (∀ x ∈ (generateKeys rnd).sk, -3 ≤ x ∧ x ≤ 3)
    ∧ (generateKeys rnd).pk.A.length = M
    ∧ (∀ row ∈ (generateKeys rnd).pk.A, row.length = N ∧ ∀ x ∈ row, 0 ≤ x ∧ x < Q)
    ∧ (generateKeys rnd).pk.b.length = M
    ∧ (∀ x ∈ (generateKeys rnd).pk.b, 0 ≤ x ∧ x < Q)
    ∧ ∃ e : List Int, e.length = M ∧ (∀ x ∈ e, -3 ≤ x ∧ x ≤ 3) ∧
        ∀ i < M, (generateKeys rnd).pk.b.getD i 0 =
          (dotZ ((generateKeys rnd).pk.A.getD i []) ((generateKeys rnd).sk) + e.getD i 0) % Q := by
  have herr : ∀ d : Nat, -3 ≤ getRandomError d ERROR_RANGE ∧ getRandomError d ERROR_RANGE ≤ 3 := by
    intro d
    have h := getRandomError_bounds d ERROR_RANGE
    have : ((ERROR_RANGE : Nat) : Int) = 3 := by norm_num [ERROR_RANGE]
    omega
  have hQt : (0 : Nat) < Q.toNat := by norm_num [Q]
  have hQcast : ((Q.toNat : Nat) : Int) = Q := by norm_num [Q]
  rw [generateKeys_def]
  dsimp only
  have hrows := generateMatrix_rows rnd N M N Q.toNat hQt
  refine ⟨by simp, ?_, generateMatrix_length rnd N M N Q.toNat, ?_, ?_, ?_, ?_⟩
  · intro x hx
    simp only [List.mem_map, List.mem_range] at hx
    obtain ⟨i, _, rfl⟩ := hx
    exact herr (rnd i)
  · intro row hrow
    have h := hrows row hrow
    rw [hQcast] at h
    exact h
  · simp [vecAdd, matVecMul, generateMatrix]
  · intro x hx
    simp only [vecAdd, List.mapIdx_eq_enum_map, List.mem_map] at hx
    obtain ⟨⟨i, a⟩, _, rfl⟩ := hx
    exact ⟨jsMod_nonneg _ _ Q_pos, jsMod_lt _ _ Q_pos⟩
  · refine ⟨(List.range M).map (fun i => getRandomError (rnd (N + M * N + i)) ERROR_RANGE),
      by simp, ?_, ?_⟩
    · intro x hx
      simp only [List.mem_map, List.mem_range] at hx
      obtain ⟨i, _, rfl⟩ := hx
      exact herr _
    · intro i hi
      have hmlen : (matVecMul (generateMatrix rnd N M N Q.toNat)
          ((List.range N).map (fun i => getRandomError (rnd i) ERROR_RANGE)) Q).length = M := by
        simp [matVecMul, generateMatrix]
      have hilt : i < (vecAdd (matVecMul (generateMatrix rnd N M N Q.toNat)
          ((List.range N).map (fun i => getRandomError (rnd i) ERROR_RANGE)) Q)
          ((List.range M).map (fun i => getRandomError (rnd (N + M * N + i)) ERROR_RANGE))
          Q).length := by
        simp only [vecAdd, List.length_mapIdx]
        omega
      rw [getD_eq_getElem' _ i 0 hilt]
      simp only [vecAdd, List.getElem_mapIdx]
      have hival : i < (matVecMul (generateMatrix rnd N M N Q.toNat)
          ((List.range N).map (fun i => getRandomError (rnd i) ERROR_RANGE)) Q).length := by omega
      simp only [matVecMul] at hival ⊢
      rw [List.getElem_map]
      have hiA : i < (generateMatrix rnd N M N Q.toNat).length := by
        rw [generateMatrix_length]; exact hi
      have hN0 : ((generateMatrix rnd N M N Q.toNat).getD 0 []).length = N := by
        rw [generateMatrix_row rnd N M N Q.toNat 0 (by norm_num [M])]
        simp
      have hrowlen : ((generateMatrix rnd N M N Q.toNat)[i]).length = N :=
        (hrows _ (List.getElem_mem hiA)).1
      have hsklen : ((List.range N).map (fun i => getRandomError (rnd i) ERROR_RANGE)).length
          = N := by simp
      have hdot : rawDot ((generateMatrix rnd N M N Q.toNat).getD 0 []).length
          ((generateMatrix rnd N M N Q.toNat)[i])
          ((List.range N).map (fun i => getRandomError (rnd i) ERROR_RANGE)) =
          dotZ ((generateMatrix rnd N M N Q.toNat)[i])
            ((List.range N).map (fun i => getRandomError (rnd i) ERROR_RANGE)) := by
        rw [hN0]
        exact rawDot_eq_dotZ' N _ _ hrowlen.symm (by rw [hrowlen, hsklen])
      rw [hdot]
      rw [getD_range_map _ _ _ _ (by exact hi)]
      rw [jsMod_eq_emod _ _ Q_pos, jsMod_eq_emod _ _ Q_pos]
      rw [getD_eq_getElem' _ i [] hiA]
      exact Int.ModEq.add_right _ (Int.emod_emod_of_dvd _ (dvd_refl Q))

/-- C5: every key pair produced by `generateKeys` has a secret key of length
N = 128 with entries in [-3, 3], an M×N matrix `A` with entries in [0, Q),
a `b` of length M with entries in [0, Q), and there is an error vector `e`
of length M with entries in [-3, 3] such that `b = (A·sk + e) mod Q`
entrywise.  (`e` is not retained: the returned `KeyPair` structure carries
only `pk.A`, `pk.b` and `sk`.) -/
theorem c5_generateKeys_invariant (rnd : Nat → Nat) :
    (generateKeys rnd).sk.length = N
    ∧ (∀ x ∈ (generateKeys rnd).sk, -3 ≤ x ∧ x ≤ 3)
    ∧ (generateKeys rnd).pk.A.length = M
    ∧ (∀ row ∈ (generateKeys rnd).pk.A, row.length = N ∧ ∀ x ∈ row, 0 ≤ x ∧ x < Q)
    ∧ (generateKeys rnd).pk.b.length = M
    ∧ (∀ x ∈ (generateKeys rnd).pk.b, 0 ≤ x ∧ x < Q)
    ∧ ∃ e : List Int, e.length = M ∧ (∀ x ∈ e, -3 ≤ x ∧ x ≤ 3) ∧
        ∀ i < M, (generateKeys rnd).pk.b.getD i 0 =
          (dotZ ((generateKeys rnd).pk.A.getD i []) ((generateKeys rnd).sk) + e.getD i 0) % Q :=
  generateKeys_props rnd

/-! ## UTF-8 encoding (`TextEncoder`, src 453-454)

`TextEncoder.encode` emits standard UTF-8.  Lean `Char` carries exactly the
Unicode scalar values, so the four length cases below cover every character
(a JS string could also hold lone surrogates, which `TextEncoder` replaces
with U+FFFD; Lean strings cannot represent those, and no claim involves
them). -/

def utf8EncodeChar (c : Char) : List Nat :=
  let n := c.toNat
  if n < 0x80 then [n]
  else if n < 0x800 then [0xC0 + n / 64, 0x80 + n % 64]
  else if n < 0x10000 then [0xE0 + n / 4096, 0x80 + n / 64 % 64, 0x80 + n % 64]
  else [0xF0 + n / 262144, 0x80 + n / 4096 % 64, 0x80 + n / 64 % 64, 0x80 + n % 64]

def utf8Encode (s : String) : List Nat := s.data.flatMap utf8EncodeChar

/-! ## Encryption (src 448-508) -/

structure EncryptedBlock where
  u : List Int
  v : Int
deriving DecidableEq

/-- Diagnostic entry for the first 20 bits (src 487-495). -/
structure StatEntry where
  bitIndex : Nat
  originalBit : Nat
  vVal : Int
  vPrime : Int
  encodedVal : Int
deriving DecidableEq

/-- Plaintext to bits: UTF-8 bytes, each expanded MSB first (src 456-462). -/
def textToBits (s : String) : List Nat := (utf8Encode s).flatMap byteToBits

/-- The random binary vector `r` for the block of bit `bitIdx`
(src 469-470): `M` fresh draws through `getRandomInt(2)`.  The encryption
loop consumes the stream in source order, `M` draws per bit. -/
def sampleR (rnd : Nat → Nat) (bitIdx : Nat) : List Int :=
  (List.range M).map (fun i => (getRandomInt (rnd (bitIdx * M + i)) 2 : Int))

/-- One block (src 472-484): `u = A.T r`, `v' = (b.T r + bit * ⌊Q/2⌋) % Q`. -/
def encryptBlock (A : List (List Int)) (b : List Int) (r : List Int) (bit : Nat) :
    EncryptedBlock :=
  { u := matTransVecMul A r Q
    v := (vecDot b r Q + (bit : Int) * halfQ).tmod Q }

/-- All blocks, one per bit, in bit order (src 464-496). -/
def encryptBlocks (A : List (List Int)) (b : List Int) (bits : List Nat)
    (rnd : Nat → Nat) : List EncryptedBlock :=
  bits.mapIdx (fun idx bit => encryptBlock A b (sampleR rnd idx) bit)

/-- The per-bit diagnostics collected for the first 20 bits (src 487-495). -/
def encryptStats (A : List (List Int)) (b : List Int) (bits : List Nat)
    (rnd : Nat → Nat) : List StatEntry :=
  (bits.take 20).mapIdx (fun idx bit =>
    { bitIndex := idx
      originalBit := bit
      vVal := vecDot b (sampleR rnd idx) Q
      vPrime := (vecDot b (sampleR rnd idx) Q + (bit : Int) * halfQ).tmod Q
      encodedVal := (bit : Int) * halfQ })

theorem sampleR_length (rnd : Nat → Nat) (bitIdx : Nat) : (sampleR rnd bitIdx).length = M := by
  simp [sampleR]

theorem sampleR_binary (rnd : Nat → Nat) (bitIdx : Nat) :
    ∀ x ∈ sampleR rnd bitIdx, x = 0 ∨ x = 1 := by
  intro x hx
  simp only [sampleR, List.mem_map, List.mem_range] at hx
  obtain ⟨i, _, rfl⟩ := hx
  have h := getRandomInt_lt (rnd (bitIdx * M + i)) 2 (by omega)
  have h0 : 0 ≤ getRandomInt (rnd (bitIdx * M + i)) 2 := Nat.zero_le _
  omega

theorem encryptBlocks_length (A : List (List Int)) (b : List Int) (bits : List Nat)
    (rnd : Nat → Nat) : (encryptBlocks A b bits rnd).length = bits.length := by
  simp [encryptBlocks]

theorem encryptBlocks_getElem (A : List (List Int)) (b : List Int) (bits : List Nat)
    (rnd : Nat → Nat) (idx : Nat) (h : idx < bits.length) :
    (encryptBlocks A b bits rnd).getD idx { u := [], v := 0 } =
      encryptBlock A b (sampleR rnd idx) (bits.getD idx 0) := by
  unfold encryptBlocks
  rw [getD_eq_getElem' _ idx _ (by simpa using h), List.getElem_mapIdx]
  rw [getD_eq_getElem' _ idx _ h]

/-- `vPrime` uses a bare `%`, but both operands are nonnegative, so it is
already canonical. -/
theorem encryptBlock_v_canonical (b r : List Int) (bit : Nat) (A : List (List Int)) :
    (encryptBlock A b r bit).v = (vecDot b r Q + (bit : Int) * halfQ) % Q
    ∧ 0 ≤ (encryptBlock A b r bit).v ∧ (encryptBlock A b r bit).v < Q := by
  have hnn : 0 ≤ vecDot b r Q + (bit : Int) * halfQ := by
    have h1 := vecDot_nonneg b r Q Q_pos
    have h2 : 0 ≤ (bit : Int) * halfQ :=
      mul_nonneg (by positivity) (by norm_num [halfQ])
    omega
  have heq : (vecDot b r Q + (bit : Int) * halfQ).tmod Q =
      (vecDot b r Q + (bit : Int) * halfQ) % Q :=
    Int.tmod_eq_emod hnn (by norm_num [Q])
  refine ⟨heq, ?_, ?_⟩
  · show 0 ≤ (vecDot b r Q + (bit : Int) * halfQ).tmod Q
    rw [heq]
    exact Int.emod_nonneg _ (by norm_num [Q])
  · show (vecDot b r Q + (bit : Int) * halfQ).tmod Q < Q
    rw [heq]
    exact Int.emod_lt_of_pos _ Q_pos

/-! ## Claim C6: shape of the emitted blocks -/

/-- C6: `encryptText` expands the UTF-8 bytes of the plaintext into bits,
most significant first, and emits exactly one block per bit, in bit order;
block `idx` is `{u = matTransVecMul(A, r), v = (vecDot(b, r) + bit*⌊Q/2⌋) mod Q}`
for a binary vector `r` of length M sampled for that bit. -/
theorem c6_encrypt_block_structure (A : List (List Int)) (b : List Int) (m : String)
    (rnd : Nat → Nat) :
    (encryptBlocks A b (textToBits m) rnd).length = (textToBits m).length
    ∧ textToBits m = (utf8Encode m).flatMap
        (fun byte => (List.range 8).map (fun k => byte / 2 ^ (7 - k) % 2))
    ∧ ∀ idx, idx < (textToBits m).length → ∃ r : List Int,
        r.length = M ∧ (∀ x ∈ r, x = 0 ∨ x = 1)
        ∧ (encryptBlocks A b (textToBits m) rnd).getD idx { u := [], v := 0 } =
            { u := matTransVecMul A r Q
              v := (vecDot b r Q + ((textToBits m).getD idx 0 : Int) * (Q / 2)) % Q } := by
  refine ⟨encryptBlocks_length A b _ rnd, ?_, ?_⟩
  · unfold textToBits
    congr 1
    funext byte
    unfold byteToBits
    apply List.map_congr_left
    intro k _
    rw [Nat.shiftRight_eq_div_pow, Nat.and_one_is_mod]
  · intro idx hidx
    refine ⟨sampleR rnd idx, sampleR_length rnd idx, sampleR_binary rnd idx, ?_⟩
    rw [encryptBlocks_getElem A b _ rnd idx hidx]
    have hv := encryptBlock_v_canonical b (sampleR rnd idx) ((textToBits m).getD idx 0) A
    have hQ2 : halfQ = Q / 2 := by decide
    unfold encryptBlock
    unfold encryptBlock at hv
    rw [show ((vecDot b (sampleR rnd idx) Q + ((textToBits m).getD idx 0 : Int) * halfQ).tmod Q)
      = (vecDot b (sampleR rnd idx) Q + ((textToBits m).getD idx 0 : Int) * halfQ) % Q
      from hv.1]
    rw [hQ2]

/-- Witness for C6 on the one-byte message "A" with a trivial key. -/
theorem c6_encrypt_block_structure_witness :
    (0 < (textToBits ("A")).length) ∧
    ∃ r : List Int,
        r.length = M ∧ (∀ x ∈ r, x = 0 ∨ x = 1)
        ∧ (encryptBlocks [] [] (textToBits ("A")) (fun _ => 0)).getD 0 { u := [], v := 0 } =
            { u := matTransVecMul [] r Q
              v := (vecDot [] r Q + ((textToBits ("A")).getD 0 0 : Int) * (Q / 2)) % Q } := by
  refine ⟨by decide, ?_⟩
  exact (c6_encrypt_block_structure [] [] ("A") (fun _ => 0)).2.2 0 (by decide)

/-! ## Claim C10: well-formedness of the encryption output -/

/-- C10: for a public key with `A` an M×N matrix and any plaintext, every
emitted block has `u` of length N with entries in `[0, Q)` and `v` in
`[0, Q)`, and the number of blocks is 8 times the UTF-8 byte length of the
plaintext. -/
theorem c10_encrypt_wellformed (A : List (List Int)) (b : List Int) (m : String)
    (rnd : Nat → Nat)
    (hAlen : A.length = M)
    (hArows : ∀ row ∈ A, row.length = N)
    (hAent : ∀ row ∈ A, ∀ x ∈ row, 0 ≤ x ∧ x < Q)
    (hblen : b.length = M)
    (hbent : ∀ x ∈ b, 0 ≤ x ∧ x < Q) :
    (encryptBlocks A b (textToBits m) rnd).length = 8 * (utf8Encode m).length
    ∧ ∀ blk ∈ encryptBlocks A b (textToBits m) rnd,
        blk.u.length = N ∧ (∀ x ∈ blk.u, 0 ≤ x ∧ x < Q) ∧ 0 ≤ blk.v ∧ blk.v < Q := by
  constructor
  · rw [encryptBlocks_length]
    unfold textToBits
    rw [List.length_flatMap]
    have : List.map (List.length ∘ byteToBits) (utf8Encode m) =
        List.map (fun _ => 8) (utf8Encode m) := by
      apply List.map_congr_left
      intro byte _
      simp [byteToBits]
    rw [this]
    simp [Nat.mul_comm]
  · intro blk hblk
    simp only [encryptBlocks, List.mapIdx_eq_enum_map, List.mem_map] at hblk
    obtain ⟨⟨idx, bit⟩, _, rfl⟩ := hblk
    have hN0 : (A.getD 0 []).length = N := by
      match A, hAlen with
      | row :: rest, _ => exact hArows row (by simp)
    refine ⟨?_, ?_, ?_, ?_⟩
    · show (matTransVecMul A (sampleR rnd idx) Q).length = N
      unfold matTransVecMul
      rw [List.length_map, List.length_range]
      exact hN0
    · show ∀ x ∈ matTransVecMul A (sampleR rnd idx) Q, 0 ≤ x ∧ x < Q
      intro x hx
      unfold matTransVecMul at hx
      simp only [List.mem_map] at hx
      obtain ⟨j, _, rfl⟩ := hx
      exact ⟨jsMod_nonneg _ _ Q_pos, jsMod_lt _ _ Q_pos⟩
    · exact (encryptBlock_v_canonical b (sampleR rnd idx) bit A).2.1
    · exact (encryptBlock_v_canonical b (sampleR rnd idx) bit A).2.2

/-- Witness for C10 with the all-zero 256×128 matrix and the message "A". -/
theorem c10_encrypt_wellformed_witness :
    ((List.replicate 256 (List.replicate 128 (0 : Int))).length = M
      ∧ (0 : Int) ≤ 0 ∧ (0 : Int) < Q)
    ∧ ((encryptBlocks (List.replicate 256 (List.replicate 128 (0 : Int)))
          (List.replicate 256 (0 : Int)) (textToBits ("A")) (fun _ => 0)).length =
        8 * (utf8Encode ("A")).length
      ∧ ∀ blk ∈ encryptBlocks (List.replicate 256 (List.replicate 128 (0 : Int)))
          (List.replicate 256 (0 : Int)) (textToBits ("A")) (fun _ => 0),
          blk.u.length = N ∧ (∀ x ∈ blk.u, 0 ≤ x ∧ x < Q) ∧ 0 ≤ blk.v ∧ blk.v < Q) := by
  constructor
  · refine ⟨by rw [List.length_replicate]; rfl, by norm_num, by norm_num [Q]⟩
  · exact c10_encrypt_wellformed _ _ ("A") (fun _ => 0)
      (by rw [List.length_replicate]; rfl)
      (by intro row hrow; rw [List.eq_of_mem_replicate hrow, List.length_replicate]; rfl)
      (by intro row hrow x hx; rw [List.eq_of_mem_replicate hrow] at hx;
          rw [List.eq_of_mem_replicate hx]; norm_num [Q])
      (by rw [List.length_replicate]; rfl)
      (by intro x hx; rw [List.eq_of_mem_replicate hx]; norm_num [Q])

/-! ## UTF-8 decoding (`TextDecoder`, src 555-556)

`new TextDecoder()` without options decodes in the WHATWG non-fatal mode:
a malformed subsequence is replaced by U+FFFD and decoding continues at the
offending byte; it never throws.  The bounds on the first continuation byte
(`E0 A0..BF`, `ED 80..9F`, `F0 90..BF`, `F4 80..8F`) are the WHATWG ranges. -/

def replChar : Char := Char.ofNat 0xFFFD

/-- Lower bound for the first continuation byte after start byte `b0`. -/
def contLow (b0 : Nat) : Nat := if b0 = 0xE0 then 0xA0 else if b0 = 0xF0 then 0x90 else 0x80

/-- Upper bound for the first continuation byte after start byte `b0`. -/
def contHigh (b0 : Nat) : Nat := if b0 = 0xED then 0x9F else if b0 = 0xF4 then 0x8F else 0xBF

def utf8DecodeLenient : List Nat → List Char
  | [] => []
  | b0 :: rest =>
    if b0 < 0x80 then Char.ofNat b0 :: utf8DecodeLenient rest
    else if 0xC2 ≤ b0 ∧ b0 ≤ 0xDF then
      match rest with
      | [] => [replChar]
      | b1 :: rest2 =>
        if 0x80 ≤ b1 ∧ b1 ≤ 0xBF then
          Char.ofNat ((b0 - 0xC0) * 64 + (b1 - 0x80)) :: utf8DecodeLenient rest2
        else replChar :: utf8DecodeLenient (b1 :: rest2)
    else if 0xE0 ≤ b0 ∧ b0 ≤ 0xEF then
      match rest with
      | [] => [replChar]
      | b1 :: rest2 =>
        if contLow b0 ≤ b1 ∧ b1 ≤ contHigh b0 then
          match rest2 with
          | [] => [replChar]
          | b2 :: rest3 =>
            if 0x80 ≤ b2 ∧ b2 ≤ 0xBF then
              Char.ofNat ((b0 - 0xE0) * 4096 + (b1 - 0x80) * 64 + (b2 - 0x80)) ::
                utf8DecodeLenient rest3
            else replChar :: utf8DecodeLenient (b2 :: rest3)
        else replChar :: utf8DecodeLenient (b1 :: rest2)
    else if 0xF0 ≤ b0 ∧ b0 ≤ 0xF4 then
      match rest with
      | [] => [replChar]
      | b1 :: rest2 =>
        if contLow b0 ≤ b1 ∧ b1 ≤ contHigh b0 then
          match rest2 with
          | [] => [replChar]
          | b2 :: rest3 =>
            if 0x80 ≤ b2 ∧ b2 ≤ 0xBF then
              match rest3 with
              | [] => [replChar]
              | b3 :: rest4 =>
                if 0x80 ≤ b3 ∧ b3 ≤ 0xBF then
                  Char.ofNat ((b0 - 0xF0) * 262144 + (b1 - 0x80) * 4096 +
                    (b2 - 0x80) * 64 + (b3 - 0x80)) :: utf8DecodeLenient rest4
                else replChar :: utf8DecodeLenient (b3 :: rest4)
            else replChar :: utf8DecodeLenient (b2 :: rest3)
        else replChar :: utf8DecodeLenient (b1 :: rest2)
    else replChar :: utf8DecodeLenient rest

theorem char_toNat_valid (c : Char) :
    c.toNat < 0xD800 ∨ (0xDFFF < c.toNat ∧ c.toNat < 0x110000) := by
  have h := c.valid
  simp only [UInt32.isValidChar, Nat.isValidChar] at h
  exact h

/-- Decoding after encoding one character restores it and leaves the tail
untouched. -/
theorem utf8_decode_encode_char (c : Char) (rest : List Nat) :
    utf8DecodeLenient (utf8EncodeChar c ++ rest) = c :: utf8DecodeLenient rest := by
  have hval := char_toNat_valid c
  have hofNat : Char.ofNat c.toNat = c := Char.ofNat_toNat c
  have hmax : c.toNat < 0x110000 := by omega
  unfold utf8EncodeChar
  dsimp only
  by_cases h1 : c.toNat < 0x80
  · rw [if_pos h1]
    simp only [List.cons_append, List.nil_append]
    rw [utf8DecodeLenient.eq_def]
    dsimp only
    rw [if_pos h1, hofNat]
  · rw [if_neg h1]
    by_cases h2 : c.toNat < 0x800
    · rw [if_pos h2]
      simp only [List.cons_append, List.nil_append]
      rw [utf8DecodeLenient.eq_def]
      dsimp only
      rw [if_neg (by omega), if_pos (by
        constructor
        · show 0xC2 ≤ 0xC0 + c.toNat / 64
          omega
        · show 0xC0 + c.toNat / 64 ≤ 0xDF
          omega)]
      rw [if_pos (by constructor <;> omega)]
      have hn : (0xC0 + c.toNat / 64 - 0xC0) * 64 + (0x80 + c.toNat % 64 - 0x80) = c.toNat := by
        omega
      rw [hn, hofNat]
    · rw [if_neg h2]
      by_cases h3 : c.toNat < 0x10000
      · rw [if_pos h3]
        simp only [List.cons_append, List.nil_append]
        rw [utf8DecodeLenient.eq_def]
        dsimp only
        rw [if_neg (by omega), if_neg (by omega), if_pos (by
          constructor
          · show 0xE0 ≤ 0xE0 + c.toNat / 4096
            omega
          · show 0xE0 + c.toNat / 4096 ≤ 0xEF
            omega)]
        rw [if_pos (by unfold contLow contHigh; split_ifs <;> omega)]
        rw [if_pos (by constructor <;> omega)]
        have hn : (0xE0 + c.toNat / 4096 - 0xE0) * 4096 +
            (0x80 + c.toNat / 64 % 64 - 0x80) * 64 + (0x80 + c.toNat % 64 - 0x80) = c.toNat := by
          omega
        rw [hn, hofNat]
      · rw [if_neg h3]
        simp only [List.cons_append, List.nil_append]
        rw [utf8DecodeLenient.eq_def]
        dsimp only
        rw [if_neg (by omega), if_neg (by omega), if_neg (by omega),
          if_pos (by
            constructor
            · show 0xF0 ≤ 0xF0 + c.toNat / 262144
              omega
            · show 0xF0 + c.toNat / 262144 ≤ 0xF4
              omega)]
        rw [if_pos (by unfold contLow contHigh; split_ifs <;> omega)]
        rw [if_pos (by constructor <;> omega)]
        rw [if_pos (by constructor <;> omega)]
        have hn : (0xF0 + c.toNat / 262144 - 0xF0) * 262144 +
            (0x80 + c.toNat / 4096 % 64 - 0x80) * 4096 +
            (0x80 + c.toNat / 64 % 64 - 0x80) * 64 + (0x80 + c.toNat % 64 - 0x80) = c.toNat := by
          omega
        rw [hn, hofNat]

/-- C1's codec core: lenient UTF-8 decoding inverts UTF-8 encoding. -/
theorem utf8_decode_encode (s : List Char) :
    utf8DecodeLenient (s.flatMap utf8EncodeChar) = s := by
  induction s with
  | nil => rfl
  | cons c cs ih =>
    rw [List.flatMap_cons, utf8_decode_encode_char c _, ih]

/-! ## Base64 (`btoa` src 505, `atob` src 512)

`btoa` encodes a latin1 "binary string" with the standard alphabet and `=`
padding and throws on any character above U+00FF; `atob` implements WHATWG
forgiving-base64: strip ASCII whitespace, strip up to two trailing `=` when
the length is a multiple of 4, reject a remaining length of 1 mod 4 or any
character outside the alphabet, and discard excess bits of a final partial
group. -/

def b64Char (v : Nat) : Char :=
  if v < 26 then Char.ofNat (65 + v)
  else if v < 52 then Char.ofNat (97 + (v - 26))
  else if v < 62 then Char.ofNat (48 + (v - 52))
  else if v = 62 then '+'
  else '/'

def b64Index (c : Char) : Option Nat :=
  if 'A' ≤ c ∧ c ≤ 'Z' then some (c.toNat - 65)
  else if 'a' ≤ c ∧ c ≤ 'z' then some (c.toNat - 71)
  else if '0' ≤ c ∧ c ≤ '9' then some (c.toNat + 4)
  else if c = '+' then some 62
  else if c = '/' then some 63
  else none

/-- Bytes to 6-bit groups, 3 bytes at a time; a final partial group keeps
its bits left-aligned (low bits zero). -/
def b64Sextets : List Nat → List Nat
  | b0 :: b1 :: b2 :: rest =>
      b0 / 4 :: ((b0 % 4) * 16 + b1 / 16) :: ((b1 % 16) * 4 + b2 / 64) :: (b2 % 64) ::
        b64Sextets rest
  | [b0, b1] => [b0 / 4, (b0 % 4) * 16 + b1 / 16, (b1 % 16) * 4]
  | [b0] => [b0 / 4, (b0 % 4) * 16]
  | [] => []

/-- 6-bit groups back to bytes, 4 at a time; excess bits of a final partial
group are discarded.  A single leftover group cannot occur (length 1 mod 4
is rejected before decoding). -/
def b64Decode : List Nat → List Nat
  | s0 :: s1 :: s2 :: s3 :: rest =>
      (s0 * 4 + s1 / 16) :: ((s1 % 16) * 16 + s2 / 4) :: ((s2 % 4) * 64 + s3) :: b64Decode rest
  | [s0, s1] => [s0 * 4 + s1 / 16]
  | [s0, s1, s2] => [s0 * 4 + s1 / 16, (s1 % 16) * 16 + s2 / 4]
  | _ => []

/-- `btoa` (src 505): `none` models the `InvalidCharacterError` thrown on a
character above U+00FF. -/
def btoaJS (s : List Char) : Option (List Char) :=
  if s.all (fun c => c.toNat < 256) then
    some ((b64Sextets (s.map Char.toNat)).map b64Char ++
      List.replicate ((3 - s.length % 3) % 3) '=')
  else none

/-- ASCII whitespace per WHATWG (forgiving-base64 removes it). -/
def isB64Ws (c : Char) : Bool :=
  c = ' ' ∨ c = '\t' ∨ c = '\n' ∨ c = '\x0c' ∨ c = '\r'

/-- Remove up to two trailing `=`. -/
def stripPad (t : List Char) : List Char :=
  match t.reverse with
  | c1 :: c2 :: r =>
      if c1 = '=' then (if c2 = '=' then r.reverse else (c2 :: r).reverse) else t
  | [c1] => if c1 = '=' then [] else t
  | [] => t

def seqOption : List (Option Nat) → Option (List Nat)
  | [] => some []
  | none :: _ => none
  | some x :: rest => (seqOption rest).map (x :: ·)

/-- `atob` (src 512): `none` models the thrown `InvalidCharacterError`. -/
def atobJS (s : List Char) : Option (List Nat) :=
  let t := s.filter (fun c => !(isB64Ws c))
  let t2 := if t.length % 4 = 0 then stripPad t else t
  if t2.length % 4 = 1 then none
  else
    match seqOption (t2.map b64Index) with
    | none => none
    | some vs => some (b64Decode vs)

theorem b64Char_spec : ∀ v : Fin 64,
    b64Index (b64Char v.val) = some v.val ∧ b64Char v.val ≠ '='
    ∧ isB64Ws (b64Char v.val) = false := by decide

theorem b64Sextets_lt (bytes : List Nat) (h : ∀ b ∈ bytes, b < 256) :
    ∀ v ∈ b64Sextets bytes, v < 64 := by
  induction bytes using b64Sextets.induct with
  | case1 b0 b1 b2 rest ih =>
    have h0 : b0 < 256 := h b0 (by simp)
    have h1 : b1 < 256 := h b1 (by simp)
    have h2 : b2 < 256 := h b2 (by simp)
    intro v hv
    rw [b64Sextets] at hv
    simp only [List.mem_cons] at hv
    rcases hv with rfl | rfl | rfl | rfl | hv
    · omega
    · omega
    · omega
    · omega
    · exact ih (fun b hb => h b (by simp [hb])) v hv
  | case2 b0 b1 =>
    have h0 : b0 < 256 := h b0 (by simp)
    have h1 : b1 < 256 := h b1 (by simp)
    intro v hv
    rw [b64Sextets] at hv
    simp only [List.mem_cons, List.not_mem_nil, or_false] at hv
    rcases hv with rfl | rfl | rfl <;> omega
  | case3 b0 =>
    have h0 : b0 < 256 := h b0 (by simp)
    intro v hv
    rw [b64Sextets] at hv
    simp only [List.mem_cons, List.not_mem_nil, or_false] at hv
    rcases hv with rfl | rfl <;> omega
  | case4 => intro v hv; rw [b64Sextets] at hv; simp at hv

theorem b64Decode_b64Sextets (bytes : List Nat) (h : ∀ b ∈ bytes, b < 256) :
    b64Decode (b64Sextets bytes) = bytes := by
  induction bytes using b64Sextets.induct with
  | case1 b0 b1 b2 rest ih =>
    have h0 : b0 < 256 := h b0 (by simp)
    have h1 : b1 < 256 := h b1 (by simp)
    have h2 : b2 < 256 := h b2 (by simp)
    rw [b64Sextets, b64Decode, ih (fun b hb => h b (by simp [hb]))]
    congr 1
    · omega
    congr 1
    · omega
    congr 1
    · omega
  | case2 b0 b1 =>
    have h0 : b0 < 256 := h b0 (by simp)
    have h1 : b1 < 256 := h b1 (by simp)
    rw [b64Sextets, b64Decode]
    congr 1
    · omega
    congr 1
    · omega
  | case3 b0 =>
    have h0 : b0 < 256 := h b0 (by simp)
    rw [b64Sextets, b64Decode]
    congr 1
    omega
  | case4 => rfl

theorem b64Sextets_length (bytes : List Nat) :
    (b64Sextets bytes).length =
      4 * (bytes.length / 3) + (if bytes.length % 3 = 0 then 0 else bytes.length % 3 + 1) := by
  induction bytes using b64Sextets.induct with
  | case1 b0 b1 b2 rest ih =>
    rw [b64Sextets]
    simp only [List.length_cons, ih]
    have h3 : (rest.length + 1 + 1 + 1) / 3 = rest.length / 3 + 1 := by omega
    have h4 : (rest.length + 1 + 1 + 1) % 3 = rest.length % 3 := by omega
    rw [h3, h4]
    by_cases h0 : rest.length % 3 = 0
    · rw [if_pos h0]
      omega
    · rw [if_neg h0]
      omega
  | case2 b0 b1 =>
    rw [b64Sextets]
    simp
  | case3 b0 =>
    rw [b64Sextets]
    simp
  | case4 => rfl

theorem seqOption_map_some {α : Type} (f : α → Option Nat) (g : α → Nat) (l : List α)
    (h : ∀ x ∈ l, f x = some (g x)) :
    seqOption (l.map f) = some (l.map g) := by
  induction l with
  | nil => rfl
  | cons x xs ih =>
    rw [List.map_cons, List.map_cons]
    rw [show f x = some (g x) from h x (by simp)]
    rw [seqOption, ih (fun y hy => h y (by simp [hy]))]
    rfl

theorem stripPad_append (m : List Char) (k : Nat) (hk : k ≤ 2) (hm : ∀ c ∈ m, c ≠ '=') :
    stripPad (m ++ List.replicate k '=') = m := by
  have hne : ∀ c ∈ m.reverse, c ≠ '=' := fun c hc => hm c (by simpa using hc)
  unfold stripPad
  interval_cases k
  · rw [show List.replicate 0 ('=') = [] from rfl, List.append_nil]
    cases hrev : m.reverse with
    | nil => rfl
    | cons c1 r =>
      have hc1 : ¬(c1 = '=') := hne c1 (by rw [hrev]; simp)
      cases r with
      | nil => simp [hc1]
      | cons c2 r2 => simp [hc1]
  · rw [show List.replicate 1 ('=') = ['='] from rfl, List.reverse_append]
    rw [show (['='] : List Char).reverse = ['='] from rfl]
    cases hrev : m.reverse with
    | nil =>
      have hmnil : m = [] := by simpa using congrArg List.reverse hrev
      subst hmnil
      simp
    | cons c2 r2 =>
      have hc2 : ¬(c2 = '=') := hne c2 (by rw [hrev]; simp)
      have hmrev : (c2 :: r2).reverse = m := by
        have := congrArg List.reverse hrev
        simpa using this.symm
      simp [hc2, hmrev]
  · rw [show List.replicate 2 ('=') = ['=', '='] from rfl, List.reverse_append]
    rw [show (['=', '='] : List Char).reverse = ['=', '='] from rfl]
    simp

/-- `atob` inverts `btoa`: the serializer's transport string decodes back to
the exact byte sequence. -/
theorem atob_btoa_roundtrip (s : List Char) (h : ∀ c ∈ s, c.toNat < 256) :
    ∃ ct, btoaJS s = some ct ∧ atobJS ct = some (s.map Char.toNat) := by
  have hall : (s.all fun c => c.toNat < 256) = true := by
    rw [List.all_eq_true]
    intro c hc
    simpa using h c hc
  have hbytes : ∀ b ∈ s.map Char.toNat, b < 256 := by
    intro b hb
    simp only [List.mem_map] at hb
    obtain ⟨c, hc, rfl⟩ := hb
    exact h c hc
  have hsex := b64Sextets_lt (s.map Char.toNat) hbytes
  refine ⟨_, by rw [btoaJS, if_pos hall], ?_⟩
  unfold atobJS
  dsimp only
  set mapped := (b64Sextets (s.map Char.toNat)).map b64Char with hmapped
  set pad := List.replicate ((3 - s.length % 3) % 3) '=' with hpad
  have hmchars : ∀ c ∈ mapped, b64Index c = some (c.toNat) ∨ True := fun _ _ => Or.inr trivial
  have hmne : ∀ c ∈ mapped, c ≠ '=' := by
    intro c hc
    rw [hmapped] at hc
    simp only [List.mem_map] at hc
    obtain ⟨v, hv, rfl⟩ := hc
    exact (b64Char_spec ⟨v, hsex v hv⟩).2.1
  have hmws : ∀ c ∈ mapped ++ pad, isB64Ws c = false := by
    intro c hc
    rcases List.mem_append.mp hc with hc | hc
    · rw [hmapped] at hc
      simp only [List.mem_map] at hc
      obtain ⟨v, hv, rfl⟩ := hc
      exact (b64Char_spec ⟨v, hsex v hv⟩).2.2
    · rw [hpad] at hc
      rw [List.eq_of_mem_replicate hc]
      decide
  have hfilter : (mapped ++ pad).filter (fun c => !(isB64Ws c)) = mapped ++ pad := by
    rw [List.filter_eq_self]
    intro c hc
    rw [hmws c hc]
    decide
  rw [hfilter]
  have hmlen : mapped.length = (b64Sextets (s.map Char.toNat)).length := by
    rw [hmapped, List.length_map]
  have hslen : (s.map Char.toNat).length = s.length := List.length_map _ _
  have hplen : pad.length = (3 - s.length % 3) % 3 := by rw [hpad, List.length_replicate]
  have hlen4 : (mapped ++ pad).length % 4 = 0 := by
    rw [List.length_append, hmlen, b64Sextets_length, hslen, hplen]
    by_cases h0 : s.length % 3 = 0
    · rw [if_pos h0]
      omega
    · rw [if_neg h0]
      omega
  rw [if_pos hlen4, stripPad_append mapped _ (by omega) hmne]
  have hmlen4 : ¬mapped.length % 4 = 1 := by
    rw [hmlen, b64Sextets_length, hslen]
    by_cases h0 : s.length % 3 = 0
    · rw [if_pos h0]
      omega
    · rw [if_neg h0]
      omega
  rw [if_neg hmlen4]
  have hseq : seqOption (mapped.map b64Index) = some (b64Sextets (s.map Char.toNat)) := by
    rw [hmapped, List.map_map]
    have := seqOption_map_some (fun v => b64Index (b64Char v)) (fun v => v)
      (b64Sextets (s.map Char.toNat))
      (fun v hv => (b64Char_spec ⟨v, hsex v hv⟩).1)
    simpa using this
  rw [hseq]
  show some (b64Decode (b64Sextets (s.map Char.toNat))) = some (s.map Char.toNat)
  rw [b64Decode_b64Sextets _ hbytes]

/-! ## JSON serialization (`JSON.stringify`, src 504)

`JSON.stringify` renders the ciphertext container with insertion-order keys,
no whitespace, decimal integers, and plain (escape-free) strings — every
string in the container is a fixed ASCII identifier.  String escaping is
outside the modelled fragment (no reachable string needs it). -/

def intToChars (n : Int) : List Char :=
  if n < 0 then '-' :: natToChars n.natAbs else natToChars n.toNat

mutual
def jsonStringify : Json → List Char
  | .null => strChars ("null")
  | .bool true => strChars ("true")
  | .bool false => strChars ("false")
  | .num n => intToChars n
  | .str s => '"' :: s ++ ['"']
  | .arr xs => '[' :: stringifyItems xs ++ [']']
  | .obj fs => '\x7b' :: stringifyFields fs ++ ['\x7d']

def stringifyItems : List Json → List Char
  | [] => []
  | [x] => jsonStringify x
  | x :: xs => jsonStringify x ++ ',' :: stringifyItems xs

def stringifyFields : List (List Char × Json) → List Char
  | [] => []
  | [(k, v)] => '"' :: k ++ '"' :: ':' :: jsonStringify v
  | (k, v) :: fs => ('"' :: k ++ '"' :: ':' :: jsonStringify v) ++ ',' :: stringifyFields fs
end

/-! ## JSON parsing (`JSON.parse`, src 513)

A fuel-indexed recursive-descent parser for the integer fragment of JSON:
objects, arrays, escape-free strings, integers, `true`/`false`/`null`.
Fractional/exponent number syntax and string escapes are rejected rather
than parsed (a documented restriction: the serializer never produces them
and no claim depends on them). -/

def isJsonWs (c : Char) : Bool := c = ' ' ∨ c = '\t' ∨ c = '\n' ∨ c = '\r'

def skipWs (s : List Char) : List Char := s.dropWhile isJsonWs

def parseDigits (s : List Char) : Option (Nat × List Char) :=
  let ds := s.takeWhile Char.isDigit
  if ds.isEmpty then none else some (digitsVal ds, s.dropWhile Char.isDigit)

def parseNumBody (s : List Char) : Option (Int × List Char) :=
  match s with
  | [] => none
  | c :: rest =>
      if c = '-' then (parseDigits rest).map (fun p => (-(p.1 : Int), p.2))
      else (parseDigits s).map (fun p => ((p.1 : Int), p.2))

def parseStringBody : List Char → Option (List Char × List Char)
  | [] => none
  | c :: rest =>
      if c = '"' then some ([], rest)
      else if c = '\\' then none
      else (parseStringBody rest).map (fun p => (c :: p.1, p.2))

mutual
def parseValue : Nat → List Char → Option (Json × List Char)
  | 0, _ => none
  | fuel + 1, s =>
    match skipWs s with
    | [] => none
    | c :: rest =>
      if c = '\x7b' then
        match skipWs rest with
        | [] => none
        | c2 :: r2 =>
            if c2 = '\x7d' then some (.obj [], r2)
            else (parseObjFields fuel rest).map (fun p => (.obj p.1, p.2))
      else if c = '[' then
        match skipWs rest with
        | [] => none
        | c2 :: r2 =>
            if c2 = ']' then some (.arr [], r2)
            else (parseArrItems fuel rest).map (fun p => (.arr p.1, p.2))
      else if c = '"' then
        (parseStringBody rest).map (fun p => (.str p.1, p.2))
      else if c = 't' then
        match rest with
        | 'r' :: 'u' :: 'e' :: r => some (.bool true, r)
        | _ => none
      else if c = 'f' then
        match rest with
        | 'a' :: 'l' :: 's' :: 'e' :: r => some (.bool false, r)
        | _ => none
      else if c = 'n' then
        match rest with
        | 'u' :: 'l' :: 'l' :: r => some (.null, r)
        | _ => none
      else if c = '-' ∨ c.isDigit then
        (parseNumBody (c :: rest)).map (fun p => (.num p.1, p.2))
      else none
termination_by structural fuel => fuel

def parseArrItems : Nat → List Char → Option (List Json × List Char)
  | 0, _ => none
  | fuel + 1, s =>
    match parseValue fuel s with
    | none => none
    | some (v, r) =>
      match skipWs r with
      | [] => none
      | c :: r2 =>
          if c = ',' then (parseArrItems fuel r2).map (fun p => (v :: p.1, p.2))
          else if c = ']' then some ([v], r2)
          else none
termination_by structural fuel => fuel

def parseObjFields : Nat → List Char → Option (List (List Char × Json) × List Char)
  | 0, _ => none
  | fuel + 1, s =>
    match skipWs s with
    | [] => none
    | c :: rest =>
      if c = '"' then
        match parseStringBody rest with
        | none => none
        | some (key, r2) =>
          match skipWs r2 with
          | [] => none
          | c3 :: r3 =>
            if c3 = ':' then
              match parseValue fuel r3 with
              | none => none
              | some (v, r4) =>
                match skipWs r4 with
                | [] => none
                | c5 :: r5 =>
                    if c5 = ',' then
                      (parseObjFields fuel r5).map (fun p => ((key, v) :: p.1, p.2))
                    else if c5 = '\x7d' then some ([(key, v)], r5)
                    else none
            else none
      else none
termination_by structural fuel => fuel
end

/-- `JSON.parse`: parse one value and reject trailing garbage.  The fuel
`2·|s| + 2` dominates the parser's recursion depth on any input, so the
fuel-indexed parser is total in exactly the way `JSON.parse` is. -/
def jsonParse (s : List Char) : Option Json :=
  match parseValue (2 * s.length + 2) s with
  | none => none
  | some (v, rest) => if (skipWs rest).isEmpty then some v else none

/-! ### Parser/serializer round trip on the container fragment -/

/-- What may legally follow a serialized value inside the container. -/
def DelimHead (rest : List Char) : Prop :=
  match rest with
  | [] => True
  | c :: _ => c = ',' ∨ c = ']' ∨ c = '\x7d'

/-- `x` parses back from its serialization whenever enough fuel is left. -/
def ParsesLen (x : Json) : Prop :=
  ∀ (fuel : Nat) (rest : List Char), DelimHead rest →
    2 * (jsonStringify x ++ rest).length < fuel →
    parseValue fuel (jsonStringify x ++ rest) = some (x, rest)

/-- The serialization is nonempty and starts with an unambiguous character. -/
def headOk (x : Json) : Prop :=
  ∃ c cs, jsonStringify x = c :: cs ∧ isJsonWs c = false
    ∧ ¬(c = ']') ∧ ¬(c = '\x7d') ∧ ¬(c = ',')

theorem char_ne {c d : Char} (h : ¬c.toNat = d.toNat) : ¬(c = d) :=
  fun he => h (by rw [he])

theorem isDigit_toNat {c : Char} (h : c.isDigit = true) : 48 ≤ c.toNat ∧ c.toNat ≤ 57 := by
  simp [Char.isDigit] at h
  exact h

theorem skipWs_cons_not_ws (c : Char) (s : List Char) (h : isJsonWs c = false) :
    skipWs (c :: s) = c :: s := by
  unfold skipWs
  rw [List.dropWhile_cons, h]
  simp

theorem isJsonWs_digit {c : Char} (h : c.isDigit = true) : isJsonWs c = false := by
  have hb := isDigit_toNat h
  unfold isJsonWs
  have h1 : ¬(c = ' ') := char_ne (by simp; omega)
  have h2 : ¬(c = '\t') := char_ne (by simp; omega)
  have h3 : ¬(c = '\n') := char_ne (by simp; omega)
  have h4 : ¬(c = '\r') := char_ne (by simp; omega)
  simp [h1, h2, h3, h4]

theorem takeWhile_append_all (p : Char → Bool) (l rest : List Char)
    (hl : ∀ c ∈ l, p c = true)
    (hrest : ∀ c cs, rest = c :: cs → p c = false) :
    (l ++ rest).takeWhile p = l ∧ (l ++ rest).dropWhile p = rest := by
  induction l with
  | nil =>
    simp only [List.nil_append]
    cases rest with
    | nil => simp
    | cons c cs =>
      rw [List.takeWhile_cons, List.dropWhile_cons, hrest c cs rfl]
      simp
  | cons c l ih =>
    rw [List.cons_append, List.takeWhile_cons, List.dropWhile_cons, hl c (by simp)]
    have := ih (fun d hd => hl d (by simp [hd]))
    simp only [if_true]
    exact ⟨by rw [this.1], by rw [this.2]⟩

theorem delimHead_not_digit (rest : List Char) (hrest : DelimHead rest) :
    ∀ c cs, rest = c :: cs → c.isDigit = false := by
  intro c cs hc
  subst hc
  unfold DelimHead at hrest
  rcases hrest with rfl | rfl | rfl <;> decide

theorem natToChars_head (m : Nat) : ∃ d ds, natToChars m = d :: ds ∧ d.isDigit = true := by
  cases h : natToChars m with
  | nil => exact absurd h (natToChars_ne_nil m)
  | cons d ds => exact ⟨d, ds, rfl, natToChars_all_digits m d (by rw [h]; simp)⟩

/-- A digit at the head sends `parseValue` into the number branch. -/
theorem parseValue_digit_head (f : Nat) (d : Char) (s : List Char) (hd : d.isDigit = true) :
    parseValue (f + 1) (d :: s) =
      (parseNumBody (d :: s)).map (fun p => (.num p.1, p.2)) := by
  have hb := isDigit_toNat hd
  have e1 : ('\x7b').toNat = 123 := rfl
  have e2 : ('[').toNat = 91 := rfl
  have e3 : ('"').toNat = 34 := rfl
  have e4 : ('t').toNat = 116 := rfl
  have e5 : ('f').toNat = 102 := rfl
  have e6 : ('n').toNat = 110 := rfl
  rw [parseValue]
  rw [skipWs_cons_not_ws d s (isJsonWs_digit hd)]
  dsimp only
  rw [if_neg (char_ne (by omega)), if_neg (char_ne (by omega)), if_neg (char_ne (by omega)),
    if_neg (char_ne (by omega)), if_neg (char_ne (by omega)), if_neg (char_ne (by omega)),
    if_pos (Or.inr hd)]

theorem parsesLen_num (n : Int) (hn : 0 ≤ n) : ParsesLen (.num n) := by
  intro fuel rest hrest hfuel
  have hser : jsonStringify (.num n) = natToChars n.toNat := by
    rw [jsonStringify]
    unfold intToChars
    rw [if_neg (by omega)]
  obtain ⟨d, ds, hnds, hd⟩ := natToChars_head n.toNat
  obtain ⟨f, rfl⟩ : ∃ f, fuel = f + 1 := ⟨fuel - 1, by omega⟩
  rw [hser, hnds, List.cons_append, parseValue_digit_head f d (ds ++ rest) hd]
  unfold parseNumBody
  dsimp only
  have hminus : ¬(d = '-') := by
    have hb := isDigit_toNat hd
    have e : ('-').toNat = 45 := rfl
    exact char_ne (by omega)
  rw [if_neg hminus]
  unfold parseDigits
  have hall : ∀ c ∈ d :: ds, c.isDigit = true := by
    rw [← hnds]
    exact natToChars_all_digits n.toNat
  have htd := takeWhile_append_all Char.isDigit (d :: ds) rest hall
    (delimHead_not_digit rest hrest)
  rw [← List.cons_append, htd.1, htd.2]
  have hval : digitsVal (d :: ds) = n.toNat := by
    rw [← hnds]
    exact digitsVal_natToChars n.toNat
  simp [hval, Int.toNat_of_nonneg hn, hser, hnds]

theorem headOk_num (n : Int) (hn : 0 ≤ n) : headOk (.num n) := by
  have hser : jsonStringify (.num n) = natToChars n.toNat := by
    rw [jsonStringify]
    unfold intToChars
    rw [if_neg (by omega)]
  obtain ⟨d, ds, hnds, hd⟩ := natToChars_head n.toNat
  refine ⟨d, ds, by rw [hser, hnds], isJsonWs_digit hd, ?_, ?_, ?_⟩
  · have hb := isDigit_toNat hd
    have e : (']').toNat = 93 := rfl
    exact char_ne (by omega)
  · have hb := isDigit_toNat hd
    have e : ('\x7d').toNat = 125 := rfl
    exact char_ne (by omega)
  · have hb := isDigit_toNat hd
    have e : (',').toNat = 44 := rfl
    exact char_ne (by omega)

def PlainStr (key : List Char) : Prop := ∀ c ∈ key, ¬(c = '"') ∧ ¬(c = '\\')

theorem parseStringBody_plain (key : List Char) (hkey : PlainStr key) (rest : List Char) :
    parseStringBody (key ++ '"' :: rest) = some (key, rest) := by
  induction key with
  | nil =>
    rw [List.nil_append, parseStringBody, if_pos rfl]
  | cons c cs ih =>
    rw [List.cons_append, parseStringBody,
      if_neg (hkey c (by simp)).1, if_neg (hkey c (by simp)).2,
      ih (fun x hx => hkey x (by simp [hx]))]
    rfl

theorem parseValue_quote_head (f : Nat) (s : List Char) :
    parseValue (f + 1) ('"' :: s) = (parseStringBody s).map (fun p => (.str p.1, p.2)) := by
  rw [parseValue, skipWs_cons_not_ws _ _ (by decide)]
  dsimp only
  rw [if_neg (by decide), if_neg (by decide), if_pos rfl]

theorem parsesLen_str (key : List Char) (hkey : PlainStr key) : ParsesLen (.str key) := by
  intro fuel rest hrest hfuel
  obtain ⟨f, rfl⟩ : ∃ f, fuel = f + 1 := ⟨fuel - 1, by omega⟩
  have hser : jsonStringify (.str key) = '"' :: key ++ ['"'] := by rw [jsonStringify]
  rw [hser]
  rw [show ('"' :: key ++ ['"']) ++ rest = '"' :: (key ++ '"' :: rest) by simp]
  rw [parseValue_quote_head, parseStringBody_plain key hkey rest]
  rfl

theorem headOk_str (key : List Char) : headOk (.str key) :=
  ⟨'"', key ++ ['"'], by rw [jsonStringify]; simp, by decide, by decide, by decide, by decide⟩

theorem stringifyItems_cons (x : Json) (xs : List Json) :
    ∃ t, stringifyItems (x :: xs) = jsonStringify x ++ t := by
  match xs with
  | [] => exact ⟨[], by rw [stringifyItems]; simp⟩
  | y :: ys => exact ⟨',' :: stringifyItems (y :: ys), by rw [stringifyItems]; simp⟩

theorem parseValue_lbrack_head (f : Nat) (s : List Char) :
    parseValue (f + 1) ('[' :: s) =
      (match skipWs s with
       | [] => none
       | c2 :: r2 =>
           if c2 = ']' then some (.arr [], r2)
           else (parseArrItems f s).map (fun p => (.arr p.1, p.2))) := by
  rw [parseValue, skipWs_cons_not_ws _ _ (by decide)]
  dsimp only
  rw [if_neg (by decide), if_pos rfl]

theorem parseValue_lbrace_head (f : Nat) (s : List Char) :
    parseValue (f + 1) ('\x7b' :: s) =
      (match skipWs s with
       | [] => none
       | c2 :: r2 =>
           if c2 = '\x7d' then some (.obj [], r2)
           else (parseObjFields f s).map (fun p => (.obj p.1, p.2))) := by
  rw [parseValue, skipWs_cons_not_ws _ _ (by decide)]
  dsimp only
  rw [if_pos rfl]

theorem parseArrItems_roundtrip (xs : List Json)
    (hxs : ∀ x ∈ xs, ParsesLen x ∧ headOk x) (hne : xs ≠ []) :
    ∀ fuel rest, DelimHead rest →
      2 * (stringifyItems xs ++ ']' :: rest).length + 1 < fuel →
      parseArrItems fuel (stringifyItems xs ++ ']' :: rest) = some (xs, rest) := by
  induction xs with
  | nil => exact absurd rfl hne
  | cons x xs ih =>
    intro fuel rest hrest hfuel
    obtain ⟨f, rfl⟩ : ∃ f, fuel = f + 1 := ⟨fuel - 1, by omega⟩
    match xs, ih with
    | [], _ =>
      rw [show stringifyItems [x] = jsonStringify x from by rw [stringifyItems]] at hfuel ⊢
      rw [parseArrItems]
      rw [(hxs x (by simp)).1 f (']' :: rest) (by unfold DelimHead; simp)
        (by simp at hfuel ⊢; omega)]
      dsimp only
      rw [skipWs_cons_not_ws _ _ (by decide)]
      dsimp only
      rw [if_neg (by decide), if_pos rfl]
    | y :: ys, ih =>
      rw [show stringifyItems (x :: y :: ys) =
        jsonStringify x ++ ',' :: stringifyItems (y :: ys) from by rw [stringifyItems]; simp]
        at hfuel ⊢
      obtain ⟨c1, cs1, hx1, _, _, _, _⟩ := (hxs x (by simp)).2
      rw [parseArrItems]
      rw [show (jsonStringify x ++ ',' :: stringifyItems (y :: ys)) ++ ']' :: rest =
        jsonStringify x ++ (',' :: (stringifyItems (y :: ys) ++ ']' :: rest)) by simp]
      have hxlen : 1 ≤ (jsonStringify x).length := by rw [hx1]; simp
      rw [(hxs x (by simp)).1 f (',' :: (stringifyItems (y :: ys) ++ ']' :: rest))
        (by unfold DelimHead; simp)
        (by simp at hfuel ⊢; omega)]
      dsimp only
      rw [skipWs_cons_not_ws _ _ (by decide)]
      dsimp only
      rw [if_pos rfl]
      rw [ih (fun z hz => hxs z (by simp [hz])) (List.cons_ne_nil _ _) f rest hrest
        (by simp at hfuel ⊢; omega)]
      rfl

theorem parsesLen_arrOf (xs : List Json) (hxs : ∀ x ∈ xs, ParsesLen x ∧ headOk x) :
    ParsesLen (.arr xs) := by
  intro fuel rest hrest hfuel
  obtain ⟨f, rfl⟩ : ∃ f, fuel = f + 1 := ⟨fuel - 1, by omega⟩
  have hser : jsonStringify (.arr xs) = '[' :: stringifyItems xs ++ [']'] := by
    rw [jsonStringify]
  rw [hser] at hfuel ⊢
  rw [show ('[' :: stringifyItems xs ++ [']']) ++ rest =
    '[' :: (stringifyItems xs ++ ']' :: rest) by simp]
  rw [parseValue_lbrack_head]
  match xs, hxs with
  | [], _ =>
    rw [show stringifyItems [] = [] from rfl]
    rw [List.nil_append, skipWs_cons_not_ws _ _ (by decide)]
    dsimp only
    rw [if_pos rfl]
  | x :: xs, hxs =>
    obtain ⟨t, ht⟩ := stringifyItems_cons x xs
    obtain ⟨c1, cs1, hx1, hws1, hne1, _, _⟩ := (hxs x (by simp)).2
    rw [show stringifyItems (x :: xs) ++ ']' :: rest =
      c1 :: (cs1 ++ t ++ ']' :: rest) by rw [ht, hx1]; simp]
    rw [skipWs_cons_not_ws _ _ hws1]
    dsimp only
    rw [if_neg hne1]
    rw [show c1 :: (cs1 ++ t ++ ']' :: rest) =
      stringifyItems (x :: xs) ++ ']' :: rest by rw [ht, hx1]; simp]
    rw [parseArrItems_roundtrip (x :: xs) hxs (List.cons_ne_nil _ _) f rest hrest
      (by simp at hfuel ⊢; omega)]
    rfl

theorem headOk_arr (xs : List Json) : headOk (.arr xs) :=
  ⟨'[', stringifyItems xs ++ [']'], by rw [jsonStringify]; simp,
    by decide, by decide, by decide, by decide⟩

theorem stringifyFields_cons (k : List Char) (v : Json) (fs : List (List Char × Json)) :
    ∃ t, stringifyFields ((k, v) :: fs) = '"' :: (k ++ '"' :: ':' :: jsonStringify v ++ t) := by
  match fs with
  | [] => exact ⟨[], by rw [stringifyFields]; simp⟩
  | f2 :: fs2 => exact ⟨',' :: stringifyFields (f2 :: fs2), by rw [stringifyFields] <;> simp⟩

theorem parseObjFields_roundtrip (fs : List (List Char × Json))
    (hfs : ∀ kv ∈ fs, PlainStr kv.1 ∧ ParsesLen kv.2 ∧ headOk kv.2) (hne : fs ≠ []) :
    ∀ fuel rest, DelimHead rest →
      2 * (stringifyFields fs ++ '\x7d' :: rest).length + 1 < fuel →
      parseObjFields fuel (stringifyFields fs ++ '\x7d' :: rest) = some (fs, rest) := by
  induction fs with
  | nil => exact absurd rfl hne
  | cons kv fs ih =>
    obtain ⟨k, v⟩ := kv
    intro fuel rest hrest hfuel
    obtain ⟨f, rfl⟩ : ∃ f, fuel = f + 1 := ⟨fuel - 1, by omega⟩
    obtain ⟨hk, hv, hvh⟩ := hfs (k, v) (by simp)
    obtain ⟨c1, cs1, hx1, _, _, _, _⟩ := hvh
    have hvlen : 1 ≤ (jsonStringify v).length := by rw [hx1]; simp
    match fs, ih with
    | [], _ =>
      rw [show stringifyFields [(k, v)] = '"' :: k ++ '"' :: ':' :: jsonStringify v from by
        rw [stringifyFields]] at hfuel ⊢
      rw [show ('"' :: k ++ '"' :: ':' :: jsonStringify v) ++ '\x7d' :: rest =
        '"' :: (k ++ '"' :: (':' :: (jsonStringify v ++ '\x7d' :: rest))) by simp]
      rw [parseObjFields]
      rw [skipWs_cons_not_ws _ _ (by decide)]
      dsimp only
      rw [if_pos rfl]
      rw [parseStringBody_plain k hk (':' :: (jsonStringify v ++ '\x7d' :: rest))]
      dsimp only
      rw [skipWs_cons_not_ws _ _ (by decide)]
      dsimp only
      rw [if_pos rfl]
      rw [hv f ('\x7d' :: rest) (by unfold DelimHead; simp) (by simp at hfuel ⊢; omega)]
      dsimp only
      rw [skipWs_cons_not_ws _ _ (by decide)]
      dsimp only
      rw [if_neg (by decide), if_pos rfl]
    | f2 :: fs2, ih =>
      rw [show stringifyFields ((k, v) :: f2 :: fs2) =
        ('"' :: k ++ '"' :: ':' :: jsonStringify v) ++ ',' :: stringifyFields (f2 :: fs2)
        from by rw [stringifyFields] <;> simp] at hfuel ⊢
      rw [show (('"' :: k ++ '"' :: ':' :: jsonStringify v) ++
          ',' :: stringifyFields (f2 :: fs2)) ++ '\x7d' :: rest =
        '"' :: (k ++ '"' :: (':' :: (jsonStringify v ++
          ',' :: (stringifyFields (f2 :: fs2) ++ '\x7d' :: rest)))) by simp]
      rw [parseObjFields]
      rw [skipWs_cons_not_ws _ _ (by decide)]
      dsimp only
      rw [if_pos rfl]
      rw [parseStringBody_plain k hk _]
      dsimp only
      rw [skipWs_cons_not_ws _ _ (by decide)]
      dsimp only
      rw [if_pos rfl]
      rw [hv f (',' :: (stringifyFields (f2 :: fs2) ++ '\x7d' :: rest))
        (by unfold DelimHead; simp) (by simp at hfuel ⊢; omega)]
      dsimp only
      rw [skipWs_cons_not_ws _ _ (by decide)]
      dsimp only
      rw [if_pos rfl]
      rw [ih (fun z hz => hfs z (by simp [hz])) (List.cons_ne_nil _ _) f rest hrest
        (by simp at hfuel ⊢; omega)]
      rfl

theorem parsesLen_objOf (fs : List (List Char × Json))
    (hfs : ∀ kv ∈ fs, PlainStr kv.1 ∧ ParsesLen kv.2 ∧ headOk kv.2) :
    ParsesLen (.obj fs) := by
  intro fuel rest hrest hfuel
  obtain ⟨f, rfl⟩ : ∃ f, fuel = f + 1 := ⟨fuel - 1, by omega⟩
  have hser : jsonStringify (.obj fs) = '\x7b' :: stringifyFields fs ++ ['\x7d'] := by
    rw [jsonStringify]
  rw [hser] at hfuel ⊢
  rw [show ('\x7b' :: stringifyFields fs ++ ['\x7d']) ++ rest =
    '\x7b' :: (stringifyFields fs ++ '\x7d' :: rest) by simp]
  rw [parseValue_lbrace_head]
  match fs, hfs with
  | [], _ =>
    rw [show stringifyFields [] = [] from rfl]
    rw [List.nil_append, skipWs_cons_not_ws _ _ (by decide)]
    dsimp only
    rw [if_pos rfl]
  | (k, v) :: fs, hfs =>
    obtain ⟨t, ht⟩ := stringifyFields_cons k v fs
    rw [show stringifyFields ((k, v) :: fs) ++ '\x7d' :: rest =
      '"' :: ((k ++ '"' :: ':' :: jsonStringify v ++ t) ++ '\x7d' :: rest) by rw [ht]; simp]
    rw [skipWs_cons_not_ws _ _ (by decide)]
    dsimp only
    rw [if_neg (by decide)]
    rw [show ('"' : Char) :: ((k ++ '"' :: ':' :: jsonStringify v ++ t) ++ '\x7d' :: rest) =
      stringifyFields ((k, v) :: fs) ++ '\x7d' :: rest by rw [ht]; simp]
    rw [parseObjFields_roundtrip ((k, v) :: fs) hfs (List.cons_ne_nil _ _) f rest hrest
      (by simp at hfuel ⊢; omega)]
    rfl

theorem headOk_obj (fs : List (List Char × Json)) : headOk (.obj fs) :=
  ⟨'\x7b', stringifyFields fs ++ ['\x7d'], by rw [jsonStringify]; simp,
    by decide, by decide, by decide, by decide⟩

/-- Parsing the serialization of a value of the container fragment restores
it exactly. -/
theorem jsonParse_stringify (x : Json) (hx : ParsesLen x) :
    jsonParse (jsonStringify x) = some x := by
  unfold jsonParse
  have h := hx (2 * (jsonStringify x).length + 2) [] trivial (by simp)
  rw [List.append_nil] at h
  rw [h]
  rfl

/-! ## Correctness of the threshold decision under bounded noise -/

/-- If the decrypted difference is congruent to `bit·⌊Q/2⌋ + E` with noise
`|E| ≤ 768 < ⌊Q/4⌋`, the threshold decision recovers the bit exactly. -/
theorem thresholdBit_correct (bit : Nat) (hbit : bit = 0 ∨ bit = 1) (E v sTu : Int)
    (hE : -768 ≤ E ∧ E ≤ 768)
    (hcong : v - sTu ≡ (bit : Int) * halfQ + E [ZMOD Q]) :
    thresholdBit (some v) (some sTu) = bit := by
  rw [thresholdBit_some]
  have hQ : Q = 3329 := rfl
  have hh : halfQ = 1664 := rfl
  have hq4 : quarterQ = 832 := rfl
  have hd : (v - sTu) % Q = ((bit : Int) * halfQ + E) % Q := hcong
  rcases hbit with rfl | rfl
  · -- bit = 0: the difference is congruent to E
    simp only [Nat.cast_zero, zero_mul, zero_add] at hd
    by_cases hEpos : 0 ≤ E
    · have hEQ : E % Q = E := Int.emod_eq_of_lt hEpos (by omega)
      rw [hd, hEQ]
      rw [show (if E > Q - quarterQ then E - Q else E) = E from if_neg (by omega)]
      rw [abs_of_nonpos (by omega)]
      rw [if_neg (by omega)]
    · have hEQ : E % Q = E + Q :=
        (eq_emod_of_modEq_of_range (Int.modEq_iff_dvd.mpr ⟨-1, by ring⟩)
          (by omega) (by omega)).symm
      rw [hd, hEQ]
      rw [show (if E + Q > Q - quarterQ then E + Q - Q else E + Q) = E from by
        rw [if_pos (by omega)]; ring]
      rw [abs_of_nonpos (by omega)]
      rw [if_neg (by omega)]
  · -- bit = 1
    simp only [Nat.cast_one, one_mul] at hd
    have hEQ : (halfQ + E) % Q = halfQ + E := Int.emod_eq_of_lt (by omega) (by omega)
    rw [hd, hEQ]
    rw [show (if halfQ + E > Q - quarterQ then halfQ + E - Q else halfQ + E) = halfQ + E
      from if_neg (by omega)]
    rw [show halfQ + E - halfQ = E from by ring]
    rw [if_pos (abs_lt.mpr ⟨by omega, by omega⟩)]

/-- The noise `e·r` of one block stays within 768 in magnitude. -/
theorem dotZ_noise_bound (e r : List Int) (he : e.length = M)
    (hee : ∀ x ∈ e, -3 ≤ x ∧ x ≤ 3) (hrr : ∀ x ∈ r, x = 0 ∨ x = 1)
    (hr : r.length = M) :
    -768 ≤ dotZ e r ∧ dotZ e r ≤ 768 := by
  have habs : |dotZ e r| ≤ 768 := by
    rw [dotZ_eq_sum e r (by omega)]
    calc |∑ i ∈ Finset.range e.length, e.getD i 0 * r.getD i 0|
        ≤ ∑ i ∈ Finset.range e.length, |e.getD i 0 * r.getD i 0| :=
          Finset.abs_sum_le_sum_abs _ _
      _ ≤ ∑ _i ∈ Finset.range e.length, (3 : Int) := by
          apply Finset.sum_le_sum
          intro i hi
          simp only [Finset.mem_range] at hi
          have hei : e.getD i 0 ∈ e := by
            rw [getD_eq_getElem' e i 0 hi]
            exact List.getElem_mem _
          have he3 := hee _ hei
          by_cases hir : i < r.length
          · have hri : r.getD i 0 ∈ r := by
              rw [getD_eq_getElem' r i 0 hir]
              exact List.getElem_mem _
            rcases hrr _ hri with h0 | h1
            · rw [h0]
              simp
            · rw [h1]
              rw [abs_mul]
              have : |e.getD i 0| ≤ 3 := abs_le.mpr ⟨he3.1, he3.2⟩
              simpa using this
          · rw [List.getD_eq_default _ _ (by omega)]
            simp
      _ = e.length * 3 := by
          rw [Finset.sum_const, Finset.card_range]
          simp [mul_comm]
      _ ≤ 768 := by
          rw [he]
          norm_num [M]
  rw [abs_le] at habs
  exact ⟨by omega, by omega⟩

set_option maxRecDepth 4000 in
set_option maxHeartbeats 1000000 in
/-- The algebraic heart of decryption: with `b` satisfying the key
invariant, the decrypted difference of a block built from `r` is congruent
to the message encoding plus the noise `e·r`. -/
theorem decrypt_difference_congruence
    (A : List (List Int)) (s e r bv : List Int) (enc : Int)
    (hA : A.length = M) (hrows : ∀ row ∈ A, row.length = N)
    (hs : s.length = N) (he : e.length = M) (hr : r.length = M)
    (hbv : bv.length = M)
    (hbpt : ∀ i < M, bv.getD i 0 = (dotZ (A.getD i []) s + e.getD i 0) % Q) :
    (vecDot bv r Q + enc).tmod Q - vecDot s (matTransVecMul A r Q) Q
      ≡ enc + dotZ e r [ZMOD Q] := by
  have hM : M = 256 := rfl
  have hN : N = 128 := rfl
  refine (ZMod.intCast_eq_intCast_iff _ _ 3329).mp ?_
  push_cast
  have cast_tmod : ∀ x : Int, ((x.tmod Q : Int) : ZMod 3329) = (x : ZMod 3329) := by
    intro x
    rw [ZMod.intCast_eq_intCast_iff]
    exact_mod_cast tmod_modEq x Q
  have cast_emod : ∀ x : Int, ((x % Q : Int) : ZMod 3329) = (x : ZMod 3329) := by
    intro x
    rw [ZMod.intCast_eq_intCast_iff]
    exact_mod_cast Int.emod_emod_of_dvd x (dvd_refl Q)
  have cast_jsMod : ∀ x : Int, ((jsMod x Q : Int) : ZMod 3329) = (x : ZMod 3329) := by
    intro x
    rw [ZMod.intCast_eq_intCast_iff]
    exact_mod_cast jsMod_modEq x Q
  rw [cast_tmod]
  push_cast
  have hN0 : (A.getD 0 []).length = N := by
    have h0 : 0 < A.length := by omega
    rw [getD_eq_getElem' A 0 [] h0]
    exact hrows _ (List.getElem_mem h0)
  have hulen : (matTransVecMul A r Q).length = N := by
    unfold matTransVecMul
    rw [List.length_map, List.length_range, hN0]
  -- the two dot products as range sums of casts
  have hvb : ((vecDot bv r Q : Int) : ZMod 3329) =
      ∑ i ∈ Finset.range M,
        ((bv.getD i 0 : Int) : ZMod 3329) * ((r.getD i 0 : Int) : ZMod 3329) := by
    rw [vecDot_eq_dotZ_emod bv r Q Q_pos (by omega), cast_emod,
      dotZ_eq_sum bv r (by omega), hbv]
    push_cast
    rfl
  have hu : ∀ j ∈ Finset.range N,
      (((matTransVecMul A r Q).getD j 0 : Int) : ZMod 3329) =
        ∑ i ∈ Finset.range M,
          (((A.getD i []).getD j 0 : Int) : ZMod 3329) * ((r.getD i 0 : Int) : ZMod 3329) := by
    intro j hj
    simp only [Finset.mem_range] at hj
    have hju : j < (matTransVecMul A r Q).length := by omega
    rw [getD_eq_getElem' _ j 0 hju]
    have : (matTransVecMul A r Q)[j] =
        jsMod ((List.range A.length).foldl
          (fun sum i => sum + (A.getD i []).getD j 0 * r.getD i 0) 0) Q := by
      unfold matTransVecMul
      rw [List.getElem_map]
      simp only [List.getElem_range]
    rw [this, cast_jsMod, foldl_range_add_eq_sum, hA]
    push_cast
    rfl
  have hvs : ((vecDot s (matTransVecMul A r Q) Q : Int) : ZMod 3329) =
      ∑ j ∈ Finset.range N, ((s.getD j 0 : Int) : ZMod 3329) *
        (∑ i ∈ Finset.range M,
          (((A.getD i []).getD j 0 : Int) : ZMod 3329) * ((r.getD i 0 : Int) : ZMod 3329)) := by
    rw [vecDot_eq_dotZ_emod s (matTransVecMul A r Q) Q Q_pos (by omega), cast_emod,
      dotZ_eq_sum s (matTransVecMul A r Q) (by omega), hs]
    push_cast
    apply Finset.sum_congr rfl
    intro j hj
    rw [hu j hj]
  have hb_i : ∀ i ∈ Finset.range M, ((bv.getD i 0 : Int) : ZMod 3329) =
      (∑ j ∈ Finset.range N,
        (((A.getD i []).getD j 0 : Int) : ZMod 3329) * ((s.getD j 0 : Int) : ZMod 3329))
      + ((e.getD i 0 : Int) : ZMod 3329) := by
    intro i hi
    simp only [Finset.mem_range] at hi
    rw [hbpt i hi, cast_emod]
    push_cast
    have hiA : i < A.length := by omega
    have hrowlen : ((A.getD i []).length) = N := by
      rw [getD_eq_getElem' A i [] hiA]
      exact hrows _ (List.getElem_mem hiA)
    have : ((dotZ (A.getD i []) s : Int) : ZMod 3329) =
        ∑ j ∈ Finset.range N,
          (((A.getD i []).getD j 0 : Int) : ZMod 3329) * ((s.getD j 0 : Int) : ZMod 3329) := by
      rw [dotZ_eq_sum (A.getD i []) s (by omega), hrowlen]
      push_cast
      rfl
    rw [this]
  have hde : ((dotZ e r : Int) : ZMod 3329) =
      ∑ i ∈ Finset.range M,
        ((e.getD i 0 : Int) : ZMod 3329) * ((r.getD i 0 : Int) : ZMod 3329) := by
    rw [dotZ_eq_sum e r (by omega), he]
    push_cast
    rfl
  rw [hvb, hvs, hde]
  rw [Finset.sum_congr rfl (fun i hi => by rw [hb_i i hi])]
  have hswap : (∑ i ∈ Finset.range M,
        ((∑ j ∈ Finset.range N,
          (((A.getD i []).getD j 0 : Int) : ZMod 3329) * ((s.getD j 0 : Int) : ZMod 3329))
          + ((e.getD i 0 : Int) : ZMod 3329)) * ((r.getD i 0 : Int) : ZMod 3329)) =
      (∑ j ∈ Finset.range N, ((s.getD j 0 : Int) : ZMod 3329) *
        (∑ i ∈ Finset.range M,
          (((A.getD i []).getD j 0 : Int) : ZMod 3329) * ((r.getD i 0 : Int) : ZMod 3329)))
      + ∑ i ∈ Finset.range M,
          ((e.getD i 0 : Int) : ZMod 3329) * ((r.getD i 0 : Int) : ZMod 3329) := by
    simp only [add_mul, Finset.sum_add_distrib]
    have h1 : (∑ i ∈ Finset.range M,
        (∑ j ∈ Finset.range N,
          (((A.getD i []).getD j 0 : Int) : ZMod 3329) * ((s.getD j 0 : Int) : ZMod 3329))
          * ((r.getD i 0 : Int) : ZMod 3329)) =
        ∑ j ∈ Finset.range N, ((s.getD j 0 : Int) : ZMod 3329) *
          (∑ i ∈ Finset.range M,
            (((A.getD i []).getD j 0 : Int) : ZMod 3329) * ((r.getD i 0 : Int) : ZMod 3329)) := by
      simp only [Finset.sum_mul, Finset.mul_sum]
      rw [Finset.sum_comm]
      apply Finset.sum_congr rfl
      intro j _
      apply Finset.sum_congr rfl
      intro i _
      ring
    rw [h1]
  rw [hswap]
  ring

/-! ## The full pipeline (src 448-562) -/

/-- Packing the bit expansion of a byte list restores the bytes. -/
theorem bitsToBytes_flatMap (bytes : List Nat) (h : ∀ b ∈ bytes, b < 256) :
    bitsToBytes (bytes.flatMap byteToBits) = bytes := by
  induction bytes with
  | nil => rfl
  | cons b rest ih =>
    rw [List.flatMap_cons]
    have h8 : (byteToBits b).length = 8 := byteToBits_length b
    rw [bitsToBytes_cons_chunk _ _ h8, byteOfBits_byteToBits b (h b (by simp)),
      ih (fun x hx => h x (by simp [hx]))]

/-- Every bit produced by the plaintext expansion is 0 or 1. -/
theorem textToBits_le_one (m : String) : ∀ b ∈ textToBits m, b ≤ 1 := by
  intro b hb
  simp only [textToBits, List.mem_flatMap] at hb
  obtain ⟨byte, _, hbb⟩ := hb
  exact byteToBits_le_one byte b hbb

/-- UTF-8 code units are bytes. -/
theorem utf8EncodeChar_lt (c : Char) : ∀ b ∈ utf8EncodeChar c, b < 256 := by
  intro b hb
  have hval := char_toNat_valid c
  have hm64 : c.toNat % 64 < 64 := Nat.mod_lt _ (by norm_num)
  unfold utf8EncodeChar at hb
  by_cases h1 : c.toNat < 0x80
  · rw [if_pos h1] at hb
    simp only [List.mem_singleton] at hb
    omega
  · rw [if_neg h1] at hb
    by_cases h2 : c.toNat < 0x800
    · rw [if_pos h2] at hb
      simp only [List.mem_cons, List.not_mem_nil, or_false] at hb
      rcases hb with rfl | rfl <;> omega
    · rw [if_neg h2] at hb
      by_cases h3 : c.toNat < 0x10000
      · rw [if_pos h3] at hb
        simp only [List.mem_cons, List.not_mem_nil, or_false] at hb
        have : c.toNat / 64 % 64 < 64 := Nat.mod_lt _ (by norm_num)
        rcases hb with rfl | rfl | rfl <;> omega
      · rw [if_neg h3] at hb
        simp only [List.mem_cons, List.not_mem_nil, or_false] at hb
        have h64 : c.toNat / 64 % 64 < 64 := Nat.mod_lt _ (by norm_num)
        have h4096 : c.toNat / 4096 % 64 < 64 := Nat.mod_lt _ (by norm_num)
        rcases hb with rfl | rfl | rfl | rfl <;> omega

theorem utf8Encode_lt (m : String) : ∀ b ∈ utf8Encode m, b < 256 := by
  intro b hb
  simp only [utf8Encode, List.mem_flatMap] at hb
  obtain ⟨c, _, hbc⟩ := hb
  exact utf8EncodeChar_lt c b hbc

/-! ### The serialized container is ASCII -/

theorem natToCharsAux_ascii (fuel : Nat) : ∀ (n : Nat) (acc : List Char),
    (∀ c ∈ acc, c.toNat < 128) → ∀ c ∈ natToCharsAux fuel n acc, c.toNat < 128 := by
  induction fuel with
  | zero =>
    intro n acc hacc c hc
    exact hacc c hc
  | succ fuel ih =>
    intro n acc hacc c hc
    by_cases h : n < 10
    · rw [natToCharsAux_step_small _ _ _ h] at hc
      rcases List.mem_cons.mp hc with rfl | hmem
      · rw [digitChar_toNat n h]
        omega
      · exact hacc c hmem
    · rw [natToCharsAux_step_big _ _ _ h] at hc
      refine ih (n / 10) _ ?_ c hc
      intro d hd
      rcases List.mem_cons.mp hd with rfl | hmem
      · rw [digitChar_toNat _ (Nat.mod_lt _ (by norm_num))]
        have : n % 10 < 10 := Nat.mod_lt _ (by norm_num)
        omega
      · exact hacc d hmem

theorem natToChars_ascii (n : Nat) : ∀ c ∈ natToChars n, c.toNat < 128 :=
  natToCharsAux_ascii (n + 1) n [] (by simp)

theorem intToChars_ascii (n : Int) : ∀ c ∈ intToChars n, c.toNat < 128 := by
  intro c hc
  unfold intToChars at hc
  by_cases h : n < 0
  · rw [if_pos h] at hc
    rcases List.mem_cons.mp hc with rfl | hmem
    · decide
    · exact natToChars_ascii _ c hmem
  · rw [if_neg h] at hc
    exact natToChars_ascii _ c hc

theorem jsonStringify_num_eq (n : Int) : jsonStringify (.num n) = intToChars n := by
  rw [jsonStringify]

theorem stringifyItems_ascii (xs : List Json)
    (h : ∀ x ∈ xs, ∀ c ∈ jsonStringify x, c.toNat < 128) :
    ∀ c ∈ stringifyItems xs, c.toNat < 128 := by
  induction xs with
  | nil =>
    intro c hc
    rw [show stringifyItems [] = [] from by rw [stringifyItems]] at hc
    simp at hc
  | cons x xs ih =>
    intro c hc
    match xs, ih, h with
    | [], _, h =>
      rw [show stringifyItems [x] = jsonStringify x from by rw [stringifyItems]] at hc
      exact h x (by simp) c hc
    | y :: ys, ih, h =>
      have he : stringifyItems (x :: y :: ys) =
          jsonStringify x ++ ',' :: stringifyItems (y :: ys) := by
        rw [stringifyItems]
        simp
      rw [he] at hc
      rcases List.mem_append.mp hc with hm | hm
      · exact h x (by simp) c hm
      · rcases List.mem_cons.mp hm with rfl | hm2
        · decide
        · exact ih (fun z hz => h z (by simp [hz])) c hm2

theorem stringifyFields_ascii (fs : List (List Char × Json))
    (h : ∀ kv ∈ fs, (∀ c ∈ kv.1, c.toNat < 128) ∧ ∀ c ∈ jsonStringify kv.2, c.toNat < 128) :
    ∀ c ∈ stringifyFields fs, c.toNat < 128 := by
  induction fs with
  | nil =>
    intro c hc
    rw [show stringifyFields [] = [] from rfl] at hc
    simp at hc
  | cons kv fs ih =>
    intro c hc
    match kv, fs, ih, h with
    | (k, v), [], _, h =>
      rw [show stringifyFields [(k, v)] = '"' :: k ++ '"' :: ':' :: jsonStringify v from by
        rw [stringifyFields]] at hc
      have hk := (h (k, v) (by simp)).1
      have hv := (h (k, v) (by simp)).2
      rcases List.mem_cons.mp hc with rfl | hm
      · decide
      · rcases List.mem_append.mp hm with hm1 | hm2
        · exact hk c hm1
        · rcases List.mem_cons.mp hm2 with rfl | hm3
          · decide
          · rcases List.mem_cons.mp hm3 with rfl | hm4
            · decide
            · exact hv c hm4
    | (k, v), f2 :: fs2, ih, h =>
      have he : stringifyFields ((k, v) :: f2 :: fs2) =
          ('"' :: k ++ '"' :: ':' :: jsonStringify v) ++ ',' :: stringifyFields (f2 :: fs2) := by
        rw [stringifyFields]
        simp
      rw [he] at hc
      have hk := (h (k, v) (by simp)).1
      have hv := (h (k, v) (by simp)).2
      rcases List.mem_append.mp hc with hm | hm
      · rcases List.mem_cons.mp hm with rfl | hm1
        · decide
        · rcases List.mem_append.mp hm1 with hm2 | hm3
          · exact hk c hm2
          · rcases List.mem_cons.mp hm3 with rfl | hm4
            · decide
            · rcases List.mem_cons.mp hm4 with rfl | hm5
              · decide
              · exact hv c hm5
      · rcases List.mem_cons.mp hm with rfl | hm2
        · decide
        · exact ih (fun z hz => h z (by simp [hz])) c hm2

theorem jsonStringify_numArr_ascii (u : List Int) :
    ∀ c ∈ jsonStringify (.arr (u.map Json.num)), c.toNat < 128 := by
  intro c hc
  rw [show jsonStringify (.arr (u.map Json.num)) =
      '[' :: stringifyItems (u.map Json.num) ++ [']'] from by rw [jsonStringify]] at hc
  rcases List.mem_cons.mp hc with rfl | hm
  · decide
  · rcases List.mem_append.mp hm with hm1 | hm2
    · refine stringifyItems_ascii _ ?_ c hm1
      intro x hx
      simp only [List.mem_map] at hx
      obtain ⟨n, _, rfl⟩ := hx
      rw [jsonStringify_num_eq]
      exact intToChars_ascii n
    · rcases List.mem_cons.mp hm2 with rfl | h0
      · decide
      · simp at h0

theorem blockJson_ascii (u : List Int) (v : Int) :
    ∀ c ∈ jsonStringify (blockJson u v), c.toNat < 128 := by
  intro c hc
  rw [show jsonStringify (blockJson u v) =
      '\x7b' :: stringifyFields [(strChars ("u"), .arr (u.map Json.num)),
        (strChars ("v"), .num v)] ++ ['\x7d'] from by rw [blockJson, jsonStringify]] at hc
  rcases List.mem_cons.mp hc with rfl | hm
  · decide
  · rcases List.mem_append.mp hm with hm1 | hm2
    · refine stringifyFields_ascii _ ?_ c hm1
      intro kv hkv
      rcases List.mem_cons.mp hkv with rfl | hkv2
      · constructor
        · show ∀ c ∈ strChars ("u"), c.toNat < 128
          decide
        · show ∀ c ∈ jsonStringify (.arr (u.map Json.num)), c.toNat < 128
          exact jsonStringify_numArr_ascii u
      · rcases List.mem_cons.mp hkv2 with rfl | h0
        · constructor
          · show ∀ c ∈ strChars ("v"), c.toNat < 128
            decide
          · show ∀ c ∈ jsonStringify (.num v), c.toNat < 128
            rw [jsonStringify_num_eq]
            exact intToChars_ascii v
        · simp at h0
    · rcases List.mem_cons.mp hm2 with rfl | h0
      · decide
      · simp at h0

/-! ### The serialized container -/

/-- The `meta` object of the ciphertext container (src 500-503): the
`Date.now()` timestamp and a fixed algorithm label. -/
def metaJson (now : Nat) : Json :=
  .obj [(strChars ("timestamp"), .num (now : Int)),
        (strChars ("algorithm"), .str (strChars ("LWE-Regev")))]

/-- Json value of the serialized ciphertext container (src 500-503), as
`JSON.parse` would reconstruct it from the serialized form. -/
def containerJson (blocks : List EncryptedBlock) (now : Nat) : Json :=
  .obj [(strChars ("blocks"), .arr (blocks.map (fun blk => blockJson blk.u blk.v))),
        (strChars ("meta"), metaJson now)]

theorem containerJson_ascii (blocks : List EncryptedBlock) (now : Nat) :
    ∀ c ∈ jsonStringify (containerJson blocks now), c.toNat < 128 := by
  intro c hc
  rw [show jsonStringify (containerJson blocks now) =
      '\x7b' :: stringifyFields
        [(strChars ("blocks"), .arr (blocks.map (fun blk => blockJson blk.u blk.v))),
         (strChars ("meta"), metaJson now)] ++ ['\x7d'] from by
    rw [containerJson, jsonStringify]] at hc
  rcases List.mem_cons.mp hc with rfl | hm
  · decide
  · rcases List.mem_append.mp hm with hm1 | hm2
    · refine stringifyFields_ascii _ ?_ c hm1
      intro kv hkv
      rcases List.mem_cons.mp hkv with rfl | hkv2
      · constructor
        · show ∀ c ∈ strChars ("blocks"), c.toNat < 128
          decide
        · show ∀ c ∈ jsonStringify (.arr (blocks.map (fun blk => blockJson blk.u blk.v))),
            c.toNat < 128
          intro d hd
          rw [show jsonStringify (.arr (blocks.map (fun blk => blockJson blk.u blk.v))) =
              '[' :: stringifyItems (blocks.map (fun blk => blockJson blk.u blk.v)) ++ [']']
            from by rw [jsonStringify]] at hd
          rcases List.mem_cons.mp hd with rfl | hd1
          · decide
          · rcases List.mem_append.mp hd1 with hd2 | hd3
            · refine stringifyItems_ascii _ ?_ d hd2
              intro x hx
              simp only [List.mem_map] at hx
              obtain ⟨blk, _, rfl⟩ := hx
              exact blockJson_ascii blk.u blk.v
            · rcases List.mem_cons.mp hd3 with rfl | h0
              · decide
              · simp at h0
      · rcases List.mem_cons.mp hkv2 with rfl | h0
        · constructor
          · show ∀ c ∈ strChars ("meta"), c.toNat < 128
            decide
          · show ∀ c ∈ jsonStringify (metaJson now), c.toNat < 128
            intro d hd
            rw [show jsonStringify (metaJson now) =
                '\x7b' :: stringifyFields
                  [(strChars ("timestamp"), .num (now : Int)),
                   (strChars ("algorithm"), .str (strChars ("LWE-Regev")))] ++ ['\x7d'] from by
              rw [metaJson, jsonStringify]] at hd
            rcases List.mem_cons.mp hd with rfl | hd1
            · decide
            · rcases List.mem_append.mp hd1 with hd2 | hd3
              · refine stringifyFields_ascii _ ?_ d hd2
                intro kv2 hkv3
                rcases List.mem_cons.mp hkv3 with rfl | hkv4
                · constructor
                  · show ∀ c ∈ strChars ("timestamp"), c.toNat < 128
                    decide
                  · show ∀ c ∈ jsonStringify (.num (now : Int)), c.toNat < 128
                    rw [jsonStringify_num_eq]
                    exact intToChars_ascii _
                · rcases List.mem_cons.mp hkv4 with rfl | h1
                  · constructor
                    · show ∀ c ∈ strChars ("algorithm"), c.toNat < 128
                      decide
                    · show ∀ c ∈ jsonStringify (.str (strChars ("LWE-Regev"))), c.toNat < 128
                      rw [show jsonStringify (.str (strChars ("LWE-Regev"))) =
                          '"' :: strChars ("LWE-Regev") ++ ['"'] from by rw [jsonStringify]]
                      decide
                  · simp at h1
              · rcases List.mem_cons.mp hd3 with rfl | h0
                · decide
                · simp at h0
        · simp at h0
    · rcases List.mem_cons.mp hm2 with rfl | h0
      · decide
      · simp at h0

theorem parsesLen_headOk_blockJson (u : List Int) (v : Int)
    (hu : ∀ x ∈ u, 0 ≤ x) (hv : 0 ≤ v) :
    ParsesLen (blockJson u v) ∧ headOk (blockJson u v) := by
  constructor
  · apply parsesLen_objOf
    intro kv hkv
    rcases List.mem_cons.mp hkv with rfl | hkv2
    · refine ⟨?_, ?_, ?_⟩
      · show PlainStr (strChars ("u"))
        unfold PlainStr
        decide
      · show ParsesLen (.arr (u.map Json.num))
        apply parsesLen_arrOf
        intro x hx
        simp only [List.mem_map] at hx
        obtain ⟨n, hn, rfl⟩ := hx
        exact ⟨parsesLen_num n (hu n hn), headOk_num n (hu n hn)⟩
      · show headOk (.arr (u.map Json.num))
        exact headOk_arr _
    · rcases List.mem_cons.mp hkv2 with rfl | h0
      · refine ⟨?_, parsesLen_num v hv, headOk_num v hv⟩
        show PlainStr (strChars ("v"))
        unfold PlainStr
        decide
      · simp at h0
  · exact headOk_obj _

theorem parsesLen_container (blocks : List EncryptedBlock) (now : Nat)
    (h : ∀ blk ∈ blocks, (∀ x ∈ blk.u, 0 ≤ x) ∧ 0 ≤ blk.v) :
    ParsesLen (containerJson blocks now) := by
  apply parsesLen_objOf
  intro kv hkv
  rcases List.mem_cons.mp hkv with rfl | hkv2
  · refine ⟨?_, ?_, ?_⟩
    · show PlainStr (strChars ("blocks"))
      unfold PlainStr
      decide
    · show ParsesLen (.arr (blocks.map (fun blk => blockJson blk.u blk.v)))
      apply parsesLen_arrOf
      intro x hx
      simp only [List.mem_map] at hx
      obtain ⟨blk, hblk, rfl⟩ := hx
      exact parsesLen_headOk_blockJson blk.u blk.v (h blk hblk).1 (h blk hblk).2
    · show headOk (.arr (blocks.map (fun blk => blockJson blk.u blk.v)))
      exact headOk_arr _
  · rcases List.mem_cons.mp hkv2 with rfl | h0
    · refine ⟨?_, ?_, ?_⟩
      · show PlainStr (strChars ("meta"))
        unfold PlainStr
        decide
      · show ParsesLen (metaJson now)
        apply parsesLen_objOf
        intro kv2 hkv3
        rcases List.mem_cons.mp hkv3 with rfl | hkv4
        · refine ⟨?_, parsesLen_num _ (Int.natCast_nonneg now),
            headOk_num _ (Int.natCast_nonneg now)⟩
          show PlainStr (strChars ("timestamp"))
          unfold PlainStr
          decide
        · rcases List.mem_cons.mp hkv4 with rfl | h1
          · refine ⟨?_, parsesLen_str _ ?_, headOk_str _⟩
            · show PlainStr (strChars ("algorithm"))
              unfold PlainStr
              decide
            · show PlainStr (strChars ("LWE-Regev"))
              unfold PlainStr
              decide
          · simp at h1
      · show headOk (metaJson now)
        exact headOk_obj _
    · simp at h0

theorem map_ofNat_toNat (s : List Char) (h : ∀ c ∈ s, c.toNat < 128) :
    (s.map Char.toNat).map Char.ofNat = s := by
  induction s with
  | nil => rfl
  | cons c cs ih =>
    simp only [List.map_cons]
    rw [Char.ofNat_toNat, ih (fun d hd => h d (by simp [hd]))]

/-- `encryptText` result (src 451, 507): the base64 ciphertext and the
visualization stats. -/
structure EncryptResult where
  ciphertext : List Char
  stats : List StatEntry

/-- `encryptText` (src 448-508): expand the plaintext to bits, encrypt one
block per bit, serialize `\x7bblocks, meta\x7d` to JSON and base64-encode it.
`none` models `btoa` throwing (it cannot here: the serialization is ASCII). -/
def encryptText (A : List (List Int)) (b : List Int) (m : String)
    (rnd : Nat → Nat) (now : Nat) : Option EncryptResult :=
  match btoaJS (jsonStringify (containerJson
      (encryptBlocks A b (textToBits m) rnd) now)) with
  | none => none
  | some ct => some { ciphertext := ct, stats := encryptStats A b (textToBits m) rnd }

/-- The message of the error thrown by `decryptText` (src 560). -/
def decryptErr : String := "Şifre çözülemedi. Geçersiz anahtar veya bozuk veri."

/-- JS property access `x.key` on the parse result (src 514-515): `none` =
accessing a property of `null` throws; an object looks the key up, and any
other defined value yields `undefined` (the inner `none`). -/
def jsProp : Json → List Char → Option (Option Json)
  | .null, _ => none
  | .obj fields, key => some (lookupField fields key)
  | _, _ => some none

/-- `decryptText` (src 510-562): base64-decode, `JSON.parse`, read
`.blocks`, `forEach` over it (throws unless it is an array), threshold each
block, pack the bits into bytes and decode them as UTF-8.  Every exception
on the way is caught and replaced by the fixed error message (src 558-561). -/
def decryptText (sk : List Int) (ct : List Char) : Except String String :=
  match atobJS ct with
  | none => .error decryptErr
  | some bytes =>
    match jsonParse (bytes.map Char.ofNat) with
    | none => .error decryptErr
    | some container =>
      match jsProp container (strChars ("blocks")) with
      | none => .error decryptErr
      | some blocksVal =>
        match blocksVal with
        | some (.arr blocks) =>
            match blocksToBits sk blocks with
            | none => .error decryptErr
            | some bits => .ok (String.mk (utf8DecodeLenient (bitsToBytes bits)))
        | _ => .error decryptErr

theorem jsProp_container (blocks : List EncryptedBlock) (now : Nat) :
    jsProp (containerJson blocks now) (strChars ("blocks")) =
      some (some (.arr (blocks.map (fun blk => blockJson blk.u blk.v)))) := rfl

/-- `forEach` over blocks succeeds pointwise. -/
theorem blocksToBits_pointwise (sk : List Int) : ∀ (bjs : List Json) (bits : List Nat),
    bjs.length = bits.length →
    (∀ i, i < bjs.length → blockToBit sk (bjs.getD i .null) = some (bits.getD i 0)) →
    blocksToBits sk bjs = some bits := by
  intro bjs
  induction bjs with
  | nil =>
    intro bits h1 _
    match bits, h1 with
    | [], _ => rfl
  | cons b rest ih =>
    intro bits h1 h2
    match bits, h1, h2 with
    | x :: xs, h1, h2 =>
      have h0 := h2 0 (by simp)
      simp only [List.getD_cons_zero] at h0
      rw [blocksToBits, h0,
        ih xs (by simpa using h1) (fun i hi => by
          have := h2 (i + 1) (by simpa using Nat.succ_lt_succ hi)
          simpa using this)]

/-- Entry facts about the emitted blocks needed for serialization. -/
theorem encryptBlocks_entries (A : List (List Int)) (b : List Int) (bits : List Nat)
    (rnd : Nat → Nat) :
    ∀ blk ∈ encryptBlocks A b bits rnd, (∀ x ∈ blk.u, 0 ≤ x) ∧ 0 ≤ blk.v := by
  intro blk hblk
  simp only [encryptBlocks, List.mapIdx_eq_enum_map, List.mem_map] at hblk
  obtain ⟨⟨idx, bit⟩, _, rfl⟩ := hblk
  constructor
  · show ∀ x ∈ matTransVecMul A (sampleR rnd idx) Q, 0 ≤ x
    intro x hx
    unfold matTransVecMul at hx
    simp only [List.mem_map] at hx
    obtain ⟨j, _, rfl⟩ := hx
    exact jsMod_nonneg _ _ Q_pos
  · exact (encryptBlock_v_canonical b (sampleR rnd idx) bit A).2.1

/-- Encryption followed by decryption with a matching key: `encryptText`
succeeds, its ciphertext base64/JSON-decodes back to the container, and
`decryptText` recovers the plaintext exactly. -/
theorem encrypt_decrypt_pipeline (A : List (List Int)) (s e bv : List Int) (m : String)
    (rnd : Nat → Nat) (now : Nat)
    (hA : A.length = M) (hrows : ∀ row ∈ A, row.length = N)
    (hs : s.length = N) (he : e.length = M) (hebd : ∀ x ∈ e, -3 ≤ x ∧ x ≤ 3)
    (hbv : bv.length = M)
    (hbpt : ∀ i < M, bv.getD i 0 = (dotZ (A.getD i []) s + e.getD i 0) % Q) :
    ∃ res, encryptText A bv m rnd now = some res
      ∧ (∃ bytes, atobJS res.ciphertext = some bytes
          ∧ jsonParse (bytes.map Char.ofNat) =
              some (containerJson (encryptBlocks A bv (textToBits m) rnd) now))
      ∧ decryptText s res.ciphertext = .ok m := by
  have hascii : ∀ c ∈ jsonStringify (containerJson (encryptBlocks A bv (textToBits m) rnd) now),
      c.toNat < 128 := containerJson_ascii _ now
  obtain ⟨ct, hbtoa, hatob⟩ := atob_btoa_roundtrip
    (jsonStringify (containerJson (encryptBlocks A bv (textToBits m) rnd) now))
    (fun c hc => by have := hascii c hc; omega)
  have hmap : (((jsonStringify (containerJson (encryptBlocks A bv (textToBits m) rnd) now)).map
        Char.toNat).map Char.ofNat) =
      jsonStringify (containerJson (encryptBlocks A bv (textToBits m) rnd) now) :=
    map_ofNat_toNat _ hascii
  have hparse : jsonParse (jsonStringify (containerJson
        (encryptBlocks A bv (textToBits m) rnd) now)) =
      some (containerJson (encryptBlocks A bv (textToBits m) rnd) now) :=
    jsonParse_stringify _ (parsesLen_container _ now (encryptBlocks_entries A bv _ rnd))
  have hblen : (encryptBlocks A bv (textToBits m) rnd).length = (textToBits m).length :=
    encryptBlocks_length A bv _ rnd
  have hN0 : (A.getD 0 []).length = N := by
    match A, hA with
    | row :: rest, _ => exact hrows row (by simp)
  have hrecover : blocksToBits s ((encryptBlocks A bv (textToBits m) rnd).map
      (fun blk => blockJson blk.u blk.v)) = some (textToBits m) := by
    apply blocksToBits_pointwise
    · rw [List.length_map, hblen]
    · intro i hi
      rw [List.length_map] at hi
      have hib : i < (textToBits m).length := by rwa [hblen] at hi
      have hgd : ((encryptBlocks A bv (textToBits m) rnd).map
          (fun blk => blockJson blk.u blk.v)).getD i .null =
          blockJson (((encryptBlocks A bv (textToBits m) rnd).getD i { u := [], v := 0 }).u)
            (((encryptBlocks A bv (textToBits m) rnd).getD i { u := [], v := 0 }).v) := by
        rw [getD_eq_getElem' _ i _ (by rw [List.length_map]; exact hi), List.getElem_map,
          getD_eq_getElem' _ i _ hi]
      rw [hgd, encryptBlocks_getElem A bv (textToBits m) rnd i hib]
      have hbit01 : (textToBits m).getD i 0 = 0 ∨ (textToBits m).getD i 0 = 1 := by
        have hmem : (textToBits m).getD i 0 ∈ textToBits m := by
          rw [getD_eq_getElem' _ i 0 hib]
          exact List.getElem_mem hib
        have := textToBits_le_one m _ hmem
        omega
      have hulen : (matTransVecMul A (sampleR rnd i) Q).length = N := by
        unfold matTransVecMul
        rw [List.length_map, List.length_range]
        exact hN0
      show blockToBit s (blockJson (matTransVecMul A (sampleR rnd i) Q)
          ((vecDot bv (sampleR rnd i) Q + (((textToBits m).getD i 0 : Nat) : Int) * halfQ).tmod Q))
        = some ((textToBits m).getD i 0)
      rw [blockToBit_wf s (matTransVecMul A (sampleR rnd i) Q) _ (by rw [hulen, hs])]
      have hE := dotZ_noise_bound e (sampleR rnd i) he hebd
        (sampleR_binary rnd i) (sampleR_length rnd i)
      have hcong := decrypt_difference_congruence A s e (sampleR rnd i) bv
        ((((textToBits m).getD i 0 : Nat) : Int) * halfQ) hA hrows hs he
        (sampleR_length rnd i) hbv hbpt
      rw [thresholdBit_correct ((textToBits m).getD i 0) hbit01 (dotZ e (sampleR rnd i))
        _ _ hE hcong]
  refine ⟨{ ciphertext := ct,
            stats := encryptStats A bv (textToBits m) rnd }, ?_, ?_, ?_⟩
  · unfold encryptText
    rw [hbtoa]
  · exact ⟨(jsonStringify (containerJson (encryptBlocks A bv (textToBits m) rnd) now)).map
      Char.toNat, hatob, by rw [hmap]; exact hparse⟩
  · show decryptText s ct = .ok m
    unfold decryptText
    rw [hatob]
    dsimp only
    rw [hmap, hparse]
    dsimp only
    rw [jsProp_container]
    dsimp only
    rw [hrecover]
    dsimp only
    rw [show textToBits m = (utf8Encode m).flatMap byteToBits from rfl]
    rw [bitsToBytes_flatMap _ (utf8Encode_lt m)]
    rw [show utf8Encode m = m.data.flatMap utf8EncodeChar from rfl]
    rw [utf8_decode_encode]

/-! ## Claim C1: the round trip -/

/-- C1: for every UTF-8 plaintext `m`, every key pair produced by
`generateKeys` (any value of the generation randomness stream), and every
choice of the per-bit random binary vectors `r` drawn during encryption
(any value of the encryption randomness stream), decrypting the encryption
with the matching secret key returns exactly `m` — deterministically, for
every random choice, not merely with high probability. -/
theorem c1_roundtrip (m : String) (keyRnd encRnd : Nat → Nat) (now : Nat) :
    ∃ res, encryptText (generateKeys keyRnd).pk.A (generateKeys keyRnd).pk.b m encRnd now
        = some res
      ∧ decryptText (generateKeys keyRnd).sk res.ciphertext = .ok m := by
  obtain ⟨hsk, _, hA, hrows, _, _, ⟨e, he, hebd, hbpt⟩⟩ := generateKeys_props keyRnd
  have hb : (generateKeys keyRnd).pk.b.length = M := (generateKeys_props keyRnd).2.2.2.2.1
  obtain ⟨res, h1, _, h3⟩ := encrypt_decrypt_pipeline (generateKeys keyRnd).pk.A
    (generateKeys keyRnd).sk e (generateKeys keyRnd).pk.b m encRnd now
    hA (fun row hr => (hrows row hr).1) hsk he hebd hb hbpt
  exact ⟨res, h1, h3⟩

/-! ## Claim C9: the empty plaintext -/

/-- C9: encrypting the empty string emits zero blocks and succeeds — the
ciphertext is a valid container that parses back with an empty `blocks`
array — and decrypting it with the matching secret key returns `""`. -/
theorem c9_empty_plaintext (keyRnd encRnd : Nat → Nat) (now : Nat) :
    encryptBlocks (generateKeys keyRnd).pk.A (generateKeys keyRnd).pk.b
        (textToBits ("")) encRnd = []
    ∧ ∃ res, encryptText (generateKeys keyRnd).pk.A (generateKeys keyRnd).pk.b ("") encRnd now
          = some res
        ∧ (∃ bytes, atobJS res.ciphertext = some bytes
            ∧ jsonParse (bytes.map Char.ofNat) = some (containerJson [] now))
        ∧ decryptText (generateKeys keyRnd).sk res.ciphertext = .ok ("") := by
  obtain ⟨hsk, _, hA, hrows, _, _, ⟨e, he, hebd, hbpt⟩⟩ := generateKeys_props keyRnd
  have hb : (generateKeys keyRnd).pk.b.length = M := (generateKeys_props keyRnd).2.2.2.2.1
  have hnil : encryptBlocks (generateKeys keyRnd).pk.A (generateKeys keyRnd).pk.b
      (textToBits ("")) encRnd = [] := rfl
  refine ⟨hnil, ?_⟩
  obtain ⟨res, h1, h2, h3⟩ := encrypt_decrypt_pipeline (generateKeys keyRnd).pk.A
    (generateKeys keyRnd).sk e (generateKeys keyRnd).pk.b ("") encRnd now
    hA (fun row hr => (hrows row hr).1) hsk he hebd hb hbpt
  refine ⟨res, h1, ?_, h3⟩
  rw [hnil] at h2
  exact h2

/-! ## Claims C2 and C3: failure handling of `decryptText` -/

/-- Base64 of `\x7b"blocks":[b,b,b,b,b,b,b,b]\x7d` with
`b = \x7b"u":[0],"v":1664\x7d`: eight well-formed blocks that decrypt to
bit 1 each under the secret key `[0]`, reassembling to the single byte
0xFF — which is not valid UTF-8. -/
def c2_ct : List Char := strChars ("eyJibG9ja3MiOlt7InUiOlswXSwidiI6MTY2NH0seyJ1IjpbMF0sInYiOjE2NjR9LHsidSI6WzBdLCJ2IjoxNjY0fSx7InUiOlswXSwidiI6MTY2NH0seyJ1IjpbMF0sInYiOjE2NjR9LHsidSI6WzBdLCJ2IjoxNjY0fSx7InUiOlswXSwidiI6MTY2NH0seyJ1IjpbMF0sInYiOjE2NjR9XX0=")

set_option maxRecDepth 100000 in
/-- C2 is violated: this ciphertext base64-decodes and parses to a
well-formed block sequence whose reassembled byte sequence `[0xFF]` is not
valid UTF-8, yet `decryptText` does not report a decryption failure — the
non-fatal `TextDecoder` substitutes U+FFFD and the call returns that
replacement-character string as plaintext. -/
theorem c2_invalid_utf8_substituted :
    decryptText [0] c2_ct = .ok (String.mk [replChar])
    ∧ ∀ msg, decryptText [0] c2_ct ≠ .error msg := by
  have h1 : decryptText [0] c2_ct = .ok (String.mk [replChar]) := rfl
  exact ⟨h1, fun msg h => Except.noConfusion (h1.symm.trans h)⟩

/-- Base64 of `\x7b"blocks":[\x7b"u":[],"v":0\x7d]\x7d`: valid base64 and valid
JSON, but the single block's `u` is empty while the secret key has 128
entries — not the expected structure. -/
def c3_ct : List Char := strChars ("eyJibG9ja3MiOlt7InUiOltdLCJ2IjowfV19")

set_option maxRecDepth 10000 in
/-- C3 is violated: on this valid-base64 string that does not decode to the
expected structure (the block's `u` array is empty, so every product
`sk[i] * u[i]` is `0 * undefined = NaN`), `decryptText` yields no
DecodeError at all — the NaN comparisons all come out false, the block
silently decodes to bit 0, and the call returns the garbage plaintext
`"\x00"`. -/
theorem c3_malformed_block_silent_garbage :
    decryptText (List.replicate 128 0) c3_ct = .ok (String.mk [Char.ofNat 0])
    ∧ ∀ msg, decryptText (List.replicate 128 0) c3_ct ≠ .error msg := by
  have h1 : decryptText (List.replicate 128 0) c3_ct
      = .ok (String.mk [Char.ofNat 0]) := rfl
  exact ⟨h1, fun msg h => Except.noConfusion (h1.symm.trans h)⟩

end LWE
